import Mathlib

/-!
Shallow embedding of the SimRank repository (simrank.py): a bipartite graph
store backed by two insertion-ordered dictionaries, a basic SimRank solver,
a SimRank++ solver, and a connectivity-based graph splitter.

Modelling conventions:
* Python dictionaries become insertion-ordered association lists; writing an
  existing key keeps its position, writing a fresh key appends.
* Python floats become rationals.  The one transcendental operation, np.exp,
  is passed in as an explicit function parameter expf; theorems that need it
  assume only the facts of the real exponential they use (such as expf 0 = 1).
* Operations whose float result is non-numeric (NaN or an infinity, e.g. a
  division by zero, or np.var of an empty sequence) are modelled with Option:
  none stands for a non-numeric value.  Arithmetic propagates none, and any
  numeric comparison against none is false, matching IEEE semantics for NaN
  and the relevant infinity cases.
* A Python statement that raises (KeyError, or the NameError on the loop
  variable when max_iter = 0 leaves it unbound at the final print) is
  modelled as an Option-valued result, none meaning the exception.
-/

namespace SimrankPy

/-- Insertion-ordered dictionary write, Python semantics: an existing key is
updated in place, a fresh key is appended at the end. -/
def dictSet {α : Type} : List (String × α) → String → α → List (String × α)
  | [], k, v => [(k, v)]
  | (k', v') :: rest, k, v =>
    if k' = k then (k, v) :: rest else (k', v') :: dictSet rest k v

/-- Dictionary lookup; none models a KeyError. -/
def dictFind {α : Type} : List (String × α) → String → Option α
  | [], _ => none
  | (k', v') :: rest, k => if k' = k then some v' else dictFind rest k

/-- Index of a node in a key list; models the enumerate-based index maps. -/
def idx (keys : List String) (s : String) : ℕ := keys.findIdx (· = s)

/-- The bipartite graph class: two adjacency dictionaries, left-to-right and
right-to-left, each mapping a node to a dictionary of neighbor-to-weight. -/
structure BipartiteGraph where
  lns : List (String × List (String × ℚ))
  rns : List (String × List (String × ℚ))
deriving DecidableEq

/-- A freshly constructed graph: both defaultdicts empty. -/
def BipartiteGraph.empty : BipartiteGraph := ⟨[], []⟩

/-- Write into a nested dictionary with defaultdict semantics: a missing
outer key starts from an empty inner dictionary. -/
def dictSet2 (d : List (String × List (String × ℚ))) (k1 k2 : String) (w : ℚ) :
    List (String × List (String × ℚ)) :=
  dictSet d k1 (dictSet ((dictFind d k1).getD []) k2 w)

/-- add_edge: record the weight on both adjacency dictionaries. -/
def BipartiteGraph.add_edge (g : BipartiteGraph) (s t : String) (w : ℚ) :
    BipartiteGraph :=
  ⟨dictSet2 g.lns s t w, dictSet2 g.rns t s w⟩

/-- get_lns: the left node keys, in insertion order. -/
def BipartiteGraph.get_lns (g : BipartiteGraph) : List String := g.lns.map Prod.fst

/-- get_rns: the right node keys, in insertion order. -/
def BipartiteGraph.get_rns (g : BipartiteGraph) : List String := g.rns.map Prod.fst

/-- get_lns_count. -/
def BipartiteGraph.get_lns_count (g : BipartiteGraph) : ℕ := g.lns.length

/-- get_lns_index: node to position, derived from iteration order. -/
def BipartiteGraph.get_lns_index (g : BipartiteGraph) : List (String × ℕ) :=
  g.get_lns.enum.map (fun p => (p.2, p.1))

/-- get_rns_index. -/
def BipartiteGraph.get_rns_index (g : BipartiteGraph) : List (String × ℕ) :=
  g.get_rns.enum.map (fun p => (p.2, p.1))

/-- get_weight: reads self.lns[ln][rn].  Because lns is a defaultdict, the
outer access on a missing left key inserts that key with an empty inner
dictionary before the inner lookup raises KeyError; the possibly mutated
graph is returned alongside the Option result (none = KeyError). -/
def BipartiteGraph.get_weight (g : BipartiteGraph) (ln rn : String) :
    Option ℚ × BipartiteGraph :=
  match dictFind g.lns ln with
  | some nbrs => (dictFind nbrs rn, g)
  | none => (none, ⟨g.lns ++ [(ln, [])], g.rns⟩)

/-- get_ln_neighbors: membership is checked first, so no mutation; none
models the KeyError raise. -/
def BipartiteGraph.get_ln_neighbors (g : BipartiteGraph) (ln : String) :
    Option (List (String × ℚ)) :=
  dictFind g.lns ln

/-- get_rn_neighbors. -/
def BipartiteGraph.get_rn_neighbors (g : BipartiteGraph) (rn : String) :
    Option (List (String × ℚ)) :=
  dictFind g.rns rn

/-- Neighbor dictionary of a left node as used inside the solvers, where the
node always comes from the key set so the KeyError branch is unreachable. -/
def lnbrs (g : BipartiteGraph) (ln : String) : List (String × ℚ) :=
  (dictFind g.lns ln).getD []

/-- Neighbor dictionary of a right node as used inside the solvers. -/
def rnbrs (g : BipartiteGraph) (rn : String) : List (String × ℚ) :=
  (dictFind g.rns rn).getD []

/-! ### Dense matrices

np.identity / np.zeros matrices become lists of rows of rationals. -/

/-- Dense rational matrix. -/
abbrev QMat := List (List ℚ)

/-- np.identity n. -/
def identityMat (n : ℕ) : QMat :=
  (List.range n).map (fun i => (List.range n).map (fun j => if i = j then 1 else 0))

/-- Matrix read; indices produced by the solvers are always in range. -/
def mget (m : QMat) (i j : ℕ) : ℚ := (m.getD i []).getD j 0

/-- Matrix write; indices produced by the solvers are always in range. -/
def mset (m : QMat) (i j : ℕ) (v : ℚ) : QMat := m.set i ((m.getD i []).set j v)

/-- np.allclose with the default relative tolerance 1e-5 and the explicit
absolute tolerance: every elementwise pair must satisfy
abs (a - b) <= atol + rtol * abs b. -/
def allclose (a b : QMat) (atol : ℚ) : Bool :=
  (a.zip b).all (fun rp =>
    (rp.1.zip rp.2).all (fun p => decide (|p.1 - p.2| ≤ atol + (1 / 100000) * |p.2|)))

/-! ### Basic SimRank solver (simrank_bipartite) -/

/-- One sweep of _update_left_partite or _update_right_partite of the basic
solver: for every ordered product pair of distinct nodes of a side, write the
damped uniform average of the previous opposite-side similarities of the
neighbor pairs, symmetrically into both positions. -/
def basicUpdateSide (keys : List String) (nbrsOf : String → List (String × ℚ))
    (oppKeys : List String) (r : ℚ) (prevOpp : QMat) (sim : QMat) : QMat :=
  (keys.product keys).foldl (fun m uv =>
    if uv.1 = uv.2 then m else
    let ui := idx keys uv.1
    let vi := idx keys uv.2
    let uns := nbrsOf uv.1
    let vns := nbrsOf uv.2
    if uns.length = 0 ∨ vns.length = 0 then
      mset (mset m ui vi 0) vi ui 0
    else
      let s := ((uns.map Prod.fst).product (vns.map Prod.fst)).foldl
        (fun acc p => acc + mget prevOpp (idx oppKeys p.1) (idx oppKeys p.2)) 0
      let val := r * s / ((uns.length : ℚ) * (vns.length : ℚ))
      mset (mset m ui vi val) vi ui val) sim

/-- The iteration loop of simrank_bipartite.  State is
(lns_sim_prev, lns_sim, rns_sim_prev, rns_sim); at the top of each pass the
convergence of both matrices against their previous copies is checked first,
then the previous copies are refreshed and both sides are updated. -/
def basicIter (G : BipartiteGraph) (r eps : ℚ) :
    ℕ → QMat × QMat × QMat × QMat → QMat × QMat
  | 0, (_, ls, _, rs) => (ls, rs)
  | fuel + 1, (lp, ls, rp, rs) =>
    if allclose ls lp eps && allclose rs rp eps then (ls, rs)
    else
      let lp' := ls
      let rp' := rs
      let ls' := basicUpdateSide G.get_lns (lnbrs G) G.get_rns r rp' ls
      let rs' := basicUpdateSide G.get_rns (rnbrs G) G.get_lns r lp' rs
      basicIter G r eps fuel (lp', ls', rp', rs')

/-- simrank_bipartite.  Both similarity matrices start as identity matrices.
When max_iter = 0 the Python loop body never runs, so the final print
statement reads the unbound loop variable and raises NameError before any
return: that is the none branch. -/
def simrank_bipartite (G : BipartiteGraph) (r : ℚ) (max_iter : ℕ) (eps : ℚ) :
    Option (QMat × QMat) :=
  if max_iter = 0 then none
  else
    let nl := G.get_lns_count
    let nr := G.rns.length
    some (basicIter G r eps max_iter
      (identityMat nl, identityMat nl, identityMat nr, identityMat nr))

/-! ### Option-valued float arithmetic

none stands for a non-numeric float (NaN or an infinity); every arithmetic
operation on a non-numeric operand is again non-numeric, and any ordering
comparison involving one is false. -/

/-- Addition with non-numeric propagation. -/
def oadd : Option ℚ → Option ℚ → Option ℚ
  | some a, some b => some (a + b)
  | _, _ => none

/-- Multiplication with non-numeric propagation. -/
def omul : Option ℚ → Option ℚ → Option ℚ
  | some a, some b => some (a * b)
  | _, _ => none

/-- Subtraction with non-numeric propagation. -/
def osub : Option ℚ → Option ℚ → Option ℚ
  | some a, some b => some (a - b)
  | _, _ => none

/-- Float division: a zero divisor yields a non-numeric result (NaN when the
numerator is also zero, an infinity otherwise); numpy only warns, it does
not raise. -/
def pydiv (a b : ℚ) : Option ℚ := if b = 0 then none else some (a / b)

/-- Matrix of possibly non-numeric floats. -/
abbrev OMat := List (List (Option ℚ))

/-- np.identity as an OMat. -/
def oidentity (n : ℕ) : OMat :=
  (List.range n).map (fun i =>
    (List.range n).map (fun j => if i = j then some 1 else some 0))

/-- np.zeros (n, m) as an OMat. -/
def ozeros (n m : ℕ) : OMat :=
  (List.range n).map (fun _ => (List.range m).map (fun _ => some 0))

/-- Read from an OMat; solver indices are always in range. -/
def omget (m : OMat) (i j : ℕ) : Option ℚ := (m.getD i []).getD j (some 0)

/-- Write into an OMat. -/
def omset (m : OMat) (i j : ℕ) (v : Option ℚ) : OMat :=
  m.set i ((m.getD i []).set j v)

/-- Elementwise close check of possibly non-numeric matrices: a comparison
with a non-numeric value is false, as for NaN and for the infinity cases
that arise here. -/
def allcloseO (a b : OMat) (atol : ℚ) : Bool :=
  (a.zip b).all (fun rp =>
    (rp.1.zip rp.2).all (fun p =>
      match p.1, p.2 with
      | some x, some y => decide (|x - y| ≤ atol + (1 / 100000) * |y|)
      | _, _ => false))

/-! ### SimRank++ solver (simrank_double_plus_bipartite) -/

/-- The hardcoded evidence lookup list for intersection sizes 0 through 10,
exactly the decimal literals of the source. -/
def calculated_evidence : List ℚ :=
  [0, 1/2, 3/4, 7/8, 15/16, 31/32,
   49219/50000, 99219/100000, 99609/100000, 99805/100000, 99902/100000]

/-- Size of the intersection of two neighbor key sets (dict keys are
distinct, so counting list membership agrees with Python set intersection). -/
def interCount (uns vns : List String) : ℕ :=
  (uns.filter (fun x => vns.contains x)).length

/-- The evidence value of one node pair, given the two neighbor key lists:
zero when either is empty, the table entry for intersection sizes up to 10,
and 1 beyond. -/
def evidenceVal (uns vns : List String) : ℚ :=
  if uns.length = 0 ∨ vns.length = 0 then 0
  else if interCount uns vns ≤ 10 then (calculated_evidence.getD (interCount uns vns) 0)
  else 1

/-- Boolean matrix write, for the calculated flags of _calculate_evidence. -/
def bset (m : List (List Bool)) (i j : ℕ) (v : Bool) : List (List Bool) :=
  m.set i ((m.getD i []).set j v)

/-- Boolean matrix read. -/
def bget (m : List (List Bool)) (i j : ℕ) : Bool := (m.getD i []).getD j false

/-- One step of the _calculate_evidence sweep: skip equal nodes and already
calculated pairs, otherwise write the pair's evidence symmetrically and mark
both flag positions. -/
def evStep (keys : List String) (nbrKeysOf : String → List String)
    (st : QMat × List (List Bool)) (uv : String × String) :
    QMat × List (List Bool) :=
  if uv.1 = uv.2 then st
  else if bget st.2 (idx keys uv.1) (idx keys uv.2) then st
  else
    let ev := evidenceVal (nbrKeysOf uv.1) (nbrKeysOf uv.2)
    let ui := idx keys uv.1
    let vi := idx keys uv.2
    (mset (mset st.1 ui vi ev) vi ui ev,
     bset (bset st.2 ui vi true) vi ui true)

/-- calc of _calculate_evidence: starting from np.identity and an all-false
calculated matrix, sweep the ordered product of the node list with itself
with evStep. -/
def calcEvidence (keys : List String) (nbrKeysOf : String → List String) : QMat :=
  ((keys.product keys).foldl (evStep keys nbrKeysOf)
    (identityMat keys.length,
     (List.range keys.length).map (fun _ => (List.range keys.length).map (fun _ => false)))).1

/-- Mean of a list of rationals (guarded by callers against emptiness where
the source would produce NaN). -/
def listMean (l : List ℚ) : ℚ := l.sum / l.length

/-- np.var: the population variance, mean of squared deviations from the
mean; on an empty sequence numpy produces NaN, modelled by the caller. -/
def listVar (l : List ℚ) : ℚ := ((l.map (fun x => (x - listMean l) ^ 2)).sum) / l.length

/-- calc of _calculate_spread for one side: per node, exp of the negated
variance of its incident weights; an empty weight sequence gives NaN
(np.var of nothing), hence none. -/
def spreadVec (expf : ℚ → ℚ) (keys : List String)
    (nbrsOf : String → List (String × ℚ)) : List (Option ℚ) :=
  keys.map (fun n =>
    let ws := (nbrsOf n).map Prod.snd
    if ws.length = 0 then none else some (expf (-(listVar ws))))

/-- One inner write of _calculate_normalized_weight: divide one incident
weight by the node's precomputed total incident weight. -/
def nwWrite (srcIdx : ℕ) (tgtKeys : List String) (total : ℚ) (M : OMat)
    (p : String × ℚ) : OMat :=
  omset M srcIdx (idx tgtKeys p.1) (pydiv p.2 total)

/-- Per-node step of _calculate_normalized_weight. -/
def nwStep (srcKeys tgtKeys : List String) (nbrsOf : String → List (String × ℚ))
    (M : OMat) (n : String) : OMat :=
  (nbrsOf n).foldl
    (nwWrite (idx srcKeys n) tgtKeys ((nbrsOf n).map Prod.snd).sum) M

/-- calc of _calculate_normalized_weight for one side: starting from
np.zeros, for each node divide each incident weight by the node's total
incident weight.  There is no division-by-zero guard in the source: a zero
total makes every quotient non-numeric. -/
def normWeight (srcKeys tgtKeys : List String)
    (nbrsOf : String → List (String × ℚ)) : OMat :=
  srcKeys.foldl (nwStep srcKeys tgtKeys nbrsOf) (ozeros srcKeys.length tgtKeys.length)

/-- One inner write of _calculate_transition_prob: a neighbor's transition
probability is the target's spread times the normalized weight, accumulated
into sum_prob. -/
def tpWrite (spreadTgt : List (Option ℚ)) (normM : OMat) (tgtKeys : List String)
    (ni : ℕ) (st : OMat × Option ℚ) (p : String × ℚ) : OMat × Option ℚ :=
  let mi := idx tgtKeys p.1
  let tv := omul (spreadTgt.getD mi none) (omget normM ni mi)
  (omset st.1 ni mi tv, oadd st.2 tv)

/-- Per-node step of _calculate_transition_prob: accumulate the node's
transition probabilities and record its self-transition probability. -/
def tpStep (spreadTgt : List (Option ℚ)) (normM : OMat)
    (srcKeys tgtKeys : List String) (nbrsOf : String → List (String × ℚ))
    (acc : OMat × List (Option ℚ)) (n : String) : OMat × List (Option ℚ) :=
  let ni := idx srcKeys n
  let res := (nbrsOf n).foldl (tpWrite spreadTgt normM tgtKeys ni) (acc.1, some 0)
  (res.1, acc.2.set ni (osub (some 1) res.2))

/-- One direction of _calculate_transition_prob: for each source node, each
neighbor's transition probability is the target's spread times the
normalized weight, accumulated into sum_prob; the self transition
probability is 1 minus that sum.  Returns the transition matrix and the
self-transition vector. -/
def transSide (spreadTgt : List (Option ℚ)) (normM : OMat)
    (srcKeys tgtKeys : List String) (nbrsOf : String → List (String × ℚ)) :
    OMat × List (Option ℚ) :=
  srcKeys.foldl (tpStep spreadTgt normM srcKeys tgtKeys nbrsOf)
    (ozeros srcKeys.length tgtKeys.length, List.replicate srcKeys.length (some 0))

/-- One sweep of _update_left_partite or _update_right_partite of the
SimRank++ solver: each neighbor-pair term is weighted by the two endpoint
transition probabilities, left associated exactly as in the source. -/
def ppUpdateSide (keys : List String) (nbrsOf : String → List (String × ℚ))
    (oppKeys : List String) (T : OMat) (r : ℚ) (prevOpp : OMat) (sim : OMat) :
    OMat :=
  (keys.product keys).foldl (fun m uv =>
    if uv.1 = uv.2 then m else
    let ui := idx keys uv.1
    let vi := idx keys uv.2
    let uns := nbrsOf uv.1
    let vns := nbrsOf uv.2
    if uns.length = 0 ∨ vns.length = 0 then
      omset (omset m ui vi (some 0)) vi ui (some 0)
    else
      let s := ((uns.map Prod.fst).product (vns.map Prod.fst)).foldl
        (fun acc p =>
          oadd acc (omul (omul (omget T ui (idx oppKeys p.1))
            (omget T vi (idx oppKeys p.2)))
            (omget prevOpp (idx oppKeys p.1) (idx oppKeys p.2)))) (some 0)
      let val := omul (some r) s
      omset (omset m ui vi val) vi ui val) sim

/-- The iteration loop of simrank_double_plus_bipartite: update both sides
from the previous copies, then check convergence and either return the
current matrices or refresh the copies and continue; fuel exhaustion
returns the current matrices. -/
def ppIter (stepL stepR : OMat → OMat → OMat) (eps : ℚ) :
    ℕ → OMat × OMat × OMat × OMat → OMat × OMat
  | 0, (_, ls, _, rs) => (ls, rs)
  | fuel + 1, (lp, ls, rp, rs) =>
    let ls' := stepL rp ls
    let rs' := stepR lp rs
    if allcloseO ls' lp eps && allcloseO rs' rp eps then (ls', rs')
    else ppIter stepL stepR eps fuel (ls', ls', rs', rs')

/-- Elementwise product of a similarity matrix with its evidence matrix
(np.multiply); both are square of the same dimension. -/
def evMul (S : OMat) (E : QMat) (n : ℕ) : OMat :=
  (List.range n).map (fun i =>
    (List.range n).map (fun j => omul (omget S i j) (some (mget E i j))))

/-- Left-side transition structure of the SimRank++ solver. -/
def transL (expf : ℚ → ℚ) (G : BipartiteGraph) : OMat × List (Option ℚ) :=
  transSide (spreadVec expf G.get_rns (rnbrs G))
    (normWeight G.get_lns G.get_rns (lnbrs G)) G.get_lns G.get_rns (lnbrs G)

/-- Right-side transition structure of the SimRank++ solver. -/
def transR (expf : ℚ → ℚ) (G : BipartiteGraph) : OMat × List (Option ℚ) :=
  transSide (spreadVec expf G.get_lns (lnbrs G))
    (normWeight G.get_rns G.get_lns (rnbrs G)) G.get_rns G.get_lns (rnbrs G)

/-- The raw similarity matrices of the SimRank++ solver: the pair
(lns_sim, rns_sim) as of the end of the iteration loop, before the final
evidence multiplication. -/
def ppRaw (G : BipartiteGraph) (tl tr : OMat) (r : ℚ) (max_iter : ℕ)
    (eps : ℚ) : OMat × OMat :=
  let nl := G.get_lns_count
  let nr := G.rns.length
  ppIter
    (fun prevOpp sim => ppUpdateSide G.get_lns (lnbrs G) G.get_rns tl r prevOpp sim)
    (fun prevOpp sim => ppUpdateSide G.get_rns (rnbrs G) G.get_lns tr r prevOpp sim)
    eps max_iter (oidentity nl, oidentity nl, oidentity nr, oidentity nr)

/-- Body of simrank_double_plus_bipartite after the transition probability
matrices are in hand: precompute evidence, iterate, and return both
matrices elementwise multiplied by their evidence.  As in the basic solver,
max_iter = 0 raises NameError on the unbound loop variable, modelled as
none. -/
def ppMain (G : BipartiteGraph) (tl tr : OMat) (r : ℚ) (max_iter : ℕ)
    (eps : ℚ) : Option (OMat × OMat) :=
  if max_iter = 0 then none
  else
    let nl := G.get_lns_count
    let nr := G.rns.length
    let levid := calcEvidence G.get_lns (fun n => (lnbrs G n).map Prod.fst)
    let revid := calcEvidence G.get_rns (fun n => (rnbrs G n).map Prod.fst)
    let res := ppRaw G tl tr r max_iter eps
    some (evMul res.1 levid nl, evMul res.2 revid nr)

/-- simrank_double_plus_bipartite: compute both transition structures from
the graph, then run the main body. -/
def simrank_double_plus_bipartite (expf : ℚ → ℚ) (G : BipartiteGraph)
    (r : ℚ) (max_iter : ℕ) (eps : ℚ) : Option (OMat × OMat) :=
  ppMain G (transL expf G).1 (transR expf G).1 r max_iter eps

/-! ### Scenario graphs from the demonstration driver -/

/-- Scenario A graph: camera and digital_camera each linked to hp.com and
bestbuy.com with weight 1. -/
def GA : BipartiteGraph :=
  ((((BipartiteGraph.empty).add_edge "camera" "hp.com" 1).add_edge
    "camera" "bestbuy.com" 1).add_edge
    "digital_camera" "hp.com" 1).add_edge "digital_camera" "bestbuy.com" 1

/-- Scenario B graph: pc and camera each linked only to hp.com with weight 1. -/
def GB : BipartiteGraph :=
  ((BipartiteGraph.empty).add_edge "pc" "hp.com" 1).add_edge "camera" "hp.com" 1

/-- Scenario C graph: edges A-1, A-2, B-1, B-3, C-3, D-4, D-5, E-5, default
weight 1. -/
def GC : BipartiteGraph :=
  (((((((BipartiteGraph.empty).add_edge "A" "1" 1).add_edge "A" "2" 1).add_edge
    "B" "1" 1).add_edge "B" "3" 1).add_edge
    "C" "3" 1).add_edge "D" "4" 1).add_edge "D" "5" 1 |>.add_edge "E" "5" 1

/-- A graph with a single edge of weight zero: a legal input, since add_edge
validates nothing about the weight. -/
def G0 : BipartiteGraph := (BipartiteGraph.empty).add_edge "a" "x" 0

/-- Two left nodes sharing exactly six right neighbors, all weights 1. -/
def G6 : BipartiteGraph :=
  ((((((((((((BipartiteGraph.empty).add_edge "u" "r1" 1).add_edge "u" "r2" 1).add_edge
   "u" "r3" 1).add_edge "u" "r4" 1).add_edge "u" "r5" 1).add_edge "u" "r6" 1).add_edge
   "v" "r1" 1).add_edge "v" "r2" 1).add_edge "v" "r3" 1).add_edge
   "v" "r4" 1).add_edge "v" "r5" 1).add_edge "v" "r6" 1

/-- A graph with a single edge of weight 1, for the get_weight lookup
experiment. -/
def G1 : BipartiteGraph := (BipartiteGraph.empty).add_edge "a" "x" 1

/-! ### split_subgraphs -/

/-- The initial waiting edge set of split_subgraphs: every (left, right)
edge, produced left node by left node in insertion order.  The Python code
keeps these in a set with unspecified iteration order; the embedding fixes
insertion order, one legal order. -/
def initWaiting (G : BipartiteGraph) : List (String × String) :=
  G.get_lns.bind (fun ln => ((lnbrs G ln).map Prod.fst).map (fun rn => (ln, rn)))

/-- The stored weight of an existing edge, as split_subgraphs reads it via
get_weight (the edge always exists at the call sites, so the KeyError
branch and the fallback 0 are unreachable). -/
def weightOf (G : BipartiteGraph) (ln rn : String) : ℚ :=
  ((G.get_weight ln rn).1).getD 0

/-- Body of the for-rn loop of split_subgraphs: when the edge (ln, rn) is
still waiting, move it into the subgraph under construction, then append
to the queue every left neighbor of rn whose edge to rn is still waiting
after the removal. -/
def splitStep (G : BipartiteGraph) (ln : String)
    (st : List (String × String) × List String × BipartiteGraph)
    (rn : String) : List (String × String) × List String × BipartiteGraph :=
  if (ln, rn) ∈ st.1 then
    let W' := st.1.erase (ln, rn)
    (W',
     st.2.1 ++ ((rnbrs G rn).map Prod.fst).filter (fun cl => decide ((cl, rn) ∈ W')),
     st.2.2.add_edge ln rn (weightOf G ln rn))
  else st

/-- The while-wating_lns loop of split_subgraphs: pop the queue head and
sweep its neighbor list with splitStep.  The fuel argument dominates the
loop measure; exhaustion cannot happen when the caller supplies enough. -/
def splitInner (G : BipartiteGraph) :
    ℕ → List (String × String) × List String × BipartiteGraph →
    List (String × String) × BipartiteGraph
  | 0, (W, _, g) => (W, g)
  | _ + 1, (W, [], g) => (W, g)
  | fuel + 1, (W, ln :: Q, g) =>
    splitInner G fuel (((lnbrs G ln).map Prod.fst).foldl (splitStep G ln) (W, Q, g))

/-- Total incident degree of the right side, the additive constant of the
inner loop measure. -/
def rightDegSum (G : BipartiteGraph) : ℕ := (G.rns.map (fun p => p.2.length)).sum

/-- The outer while-wating_edges loop of split_subgraphs: pop one waiting
edge (and put it back), seed the breadth-first sweep with its left node,
and collect the finished subgraph.  Modelling the set pop as taking the
head of the list. -/
def splitOuter (G : BipartiteGraph) :
    ℕ → List (String × String) → List BipartiteGraph → List BipartiteGraph
  | 0, _, acc => acc
  | fuel + 1, W, acc =>
    match W with
    | [] => acc
    | (ln0, _) :: _ =>
      let res := splitInner G ((rightDegSum G + 2) * W.length + 2)
        (W, [ln0], BipartiteGraph.empty)
      splitOuter G fuel res.1 (acc ++ [res.2])

/-- split_subgraphs: split the graph into its connected components. -/
def BipartiteGraph.split_subgraphs (G : BipartiteGraph) : List BipartiteGraph :=
  splitOuter G (initWaiting G).length (initWaiting G) []

/-! ### Support definitions for the verification -/

/-- Row and column counts of a dense matrix. -/
def Shape {α : Type} (M : List (List α)) (nr nc : ℕ) : Prop :=
  M.length = nr ∧ ∀ row ∈ M, row.length = nc

/-- The state invariant of the evidence sweep: any flagged off-diagonal slot
of a member pair already holds that pair's evidence value. -/
def EvInv (keys : List String) (nf : String → List String)
    (st : QMat × List (List Bool)) : Prop :=
  ∀ u ∈ keys, ∀ v ∈ keys, u ≠ v → bget st.2 (idx keys u) (idx keys v) = true →
    mget st.1 (idx keys u) (idx keys v) = evidenceVal (nf u) (nf v)

/-- The transition probability value written by tpWrite for one neighbor:
the target's spread times the normalized weight entry. -/
def tpVal (spreadTgt : List (Option ℚ)) (normM : OMat) (tgtKeys : List String)
    (ni : ℕ) (p : String × ℚ) : Option ℚ :=
  omul (spreadTgt.getD (idx tgtKeys p.1) none) (omget normM ni (idx tgtKeys p.1))

/-- A possibly non-numeric float that is in fact numeric and in [0,1]. -/
def EntryIn01 (e : Option ℚ) : Prop := ∃ x, e = some x ∧ 0 ≤ x ∧ x ≤ 1

/-- Every entry of the matrix is numeric and in [0,1]. -/
def OMatIn01 (M : OMat) : Prop := ∀ row ∈ M, ∀ e ∈ row, EntryIn01 e

/-- Every entry of the rational matrix is in [0,1]. -/
def QMatIn01 (M : QMat) : Prop := ∀ row ∈ M, ∀ x ∈ row, 0 ≤ x ∧ x ≤ 1

/-- A transition matrix is row substochastic over each member node's
neighbor list: every neighbor entry is numeric and nonnegative and the
row sums to at most 1. -/
def TransOK (T : OMat) (srcKeys oppKeys : List String)
    (nbrsOf : String → List (String × ℚ)) : Prop :=
  ∀ u ∈ srcKeys, ∃ tv : String × ℚ → ℚ,
    (∀ p ∈ nbrsOf u,
      omget T (idx srcKeys u) (idx oppKeys p.1) = some (tv p) ∧ 0 ≤ tv p) ∧
    ((nbrsOf u).map tv).sum ≤ 1

/-- Well-formedness of one adjacency side as the dictionaries guarantee it:
distinct keys, duplicate-free nonempty neighbor key lists pointing into the
opposite side, and positive weights. -/
def SideOK (keys oppKeys : List String)
    (nbrsOf : String → List (String × ℚ)) : Prop :=
  keys.Nodup ∧ ∀ n ∈ keys, ((nbrsOf n).map Prod.fst).Nodup ∧ nbrsOf n ≠ [] ∧
    ∀ p ∈ nbrsOf n, p.1 ∈ oppKeys ∧ 0 < p.2

/-- Well-formedness of a graph with positive weights, on both sides. -/
def GraphOK (G : BipartiteGraph) : Prop :=
  SideOK G.get_lns G.get_rns (lnbrs G) ∧ SideOK G.get_rns G.get_lns (rnbrs G)

instance (e : Option ℚ) : Decidable (EntryIn01 e) := by
  unfold EntryIn01
  cases e with
  | none => exact .isFalse (by simp)
  | some x => exact decidable_of_iff (0 ≤ x ∧ x ≤ 1) (by simp)

instance (keys oppKeys : List String) (nbrsOf : String → List (String × ℚ)) :
    Decidable (SideOK keys oppKeys nbrsOf) := by
  unfold SideOK
  infer_instance

instance (G : BipartiteGraph) : Decidable (GraphOK G) := by
  unfold GraphOK
  infer_instance

/-! ### Support definitions for the split_subgraphs verification -/

/-- The edge (ln, rn) is stored in g's left adjacency with weight w. -/
def hasEdgeW (g : BipartiteGraph) (ln rn : String) (w : ℚ) : Prop :=
  dictFind (lnbrs g ln) rn = some w

instance (g : BipartiteGraph) (ln rn : String) (w : ℚ) :
    Decidable (hasEdgeW g ln rn w) := by
  unfold hasEdgeW
  infer_instance

/-- Two edges touch: they share the left node or the right node. -/
def eadj (e f : String × String) : Prop := e.1 = f.1 ∨ e.2 = f.2

/-- Connectivity between edges of G, treating each edge as an undirected
link: the reflexive transitive closure of touching, through edges of G. -/
def connIn (G : BipartiteGraph) (e f : String × String) : Prop :=
  Relation.ReflTransGen
    (fun a b => a ∈ initWaiting G ∧ b ∈ initWaiting G ∧ eadj a b) e f

/-- The structural facts split_subgraphs relies on, true of every graph
built through add_edge: duplicate-free left keys and per-node neighbor
keys (they are dictionary key sets), and every left-side edge mirrored in
the right-side adjacency (add_edge writes both sides). -/
def SplitOK (G : BipartiteGraph) : Prop :=
  G.get_lns.Nodup ∧
  (∀ p ∈ G.lns, (p.2.map Prod.fst).Nodup) ∧
  (∀ p ∈ G.lns, ∀ q ∈ p.2, p.1 ∈ (rnbrs G q.1).map Prod.fst)

instance (G : BipartiteGraph) : Decidable (SplitOK G) := by
  unfold SplitOK
  infer_instance

/-- What split_subgraphs must deliver: every edge of G is carried, with
its stored weight, by exactly one returned subgraph; the subgraphs hold
nothing but edges of G with their stored weights; and each subgraph's
edge set is internally connected and closed under connectivity, hence a
maximal connected component. -/
def SplitResultOK (G : BipartiteGraph) (res : List BipartiteGraph) : Prop :=
  (∀ l r, (l, r) ∈ initWaiting G →
    res.countP (fun g => decide (hasEdgeW g l r (weightOf G l r))) = 1) ∧
  (∀ g ∈ res, ∀ l r w, hasEdgeW g l r w →
    (l, r) ∈ initWaiting G ∧ w = weightOf G l r) ∧
  (∀ g ∈ res,
    (∃ l r w, hasEdgeW g l r w) ∧
    (∀ l r w, hasEdgeW g l r w → ∀ l' r' w', hasEdgeW g l' r' w' →
      connIn G (l, r) (l', r')) ∧
    (∀ l r w, hasEdgeW g l r w → ∀ f, connIn G (l, r) f →
      ∃ w', hasEdgeW g f.1 f.2 w'))

/-- Invariant of the outer loop of split_subgraphs over the waiting edge
set W and the accumulated subgraph list acc. -/
structure OuterInv (G : BipartiteGraph) (W : List (String × String))
    (acc : List BipartiteGraph) : Prop where
  wsub : ∀ e ∈ W, e ∈ initWaiting G
  wnd : W.Nodup
  sat : ∀ l r r', (l, r) ∈ W → (l, r') ∈ initWaiting G → (l, r') ∈ W
  oc : ∀ e, e ∈ initWaiting G → e ∉ W → ∀ f ∈ W, ¬ eadj e f
  cov : ∀ l r, (l, r) ∈ initWaiting G → (l, r) ∉ W →
    acc.countP (fun g => decide (hasEdgeW g l r (weightOf G l r))) = 1
  sub : ∀ g ∈ acc, ∀ l r w, hasEdgeW g l r w →
    (l, r) ∈ initWaiting G ∧ (l, r) ∉ W ∧ w = weightOf G l r
  comp : ∀ g ∈ acc,
    (∃ l r w, hasEdgeW g l r w) ∧
    (∀ l r w, hasEdgeW g l r w → ∀ l' r' w', hasEdgeW g l' r' w' →
      connIn G (l, r) (l', r')) ∧
    (∀ l r w, hasEdgeW g l r w → ∀ f, connIn G (l, r) f →
      ∃ w', hasEdgeW g f.1 f.2 w')

/-- Invariant of the inner (queue) loop of split_subgraphs within one
outer round that started from waiting set W₀ and the seed edge seed. -/
structure SplitInv (G : BipartiteGraph) (W₀ : List (String × String))
    (seed : String × String) (W : List (String × String)) (Q : List String)
    (g : BipartiteGraph) : Prop where
  wsub : ∀ e ∈ W, e ∈ W₀
  wnd : W.Nodup
  sat : ∀ l r r', (l, r) ∈ W → (l, r') ∈ W₀ → (l, r') ∈ W
  part : ∀ l r w, hasEdgeW g l r w ↔
    ((l, r) ∈ W₀ ∧ (l, r) ∉ W ∧ w = weightOf G l r)
  conn : ∀ l r w, hasEdgeW g l r w → connIn G seed (l, r)
  qconn : ∀ q ∈ Q, ∃ r, (q, r) ∈ W₀ ∧ connIn G seed (q, r)
  clos : ∀ l r, (l, r) ∈ W₀ → (l, r) ∉ W → ∀ l', (l', r) ∈ W → l' ∈ Q
  seedq : seed ∈ W → seed.1 ∈ Q

/-- Invariant holding mid-way through the neighbor sweep of one dequeued
left node ln, with rest the still unprocessed suffix of ln's neighbor
keys and st the current (waiting, queue, subgraph) state. -/
structure StepInv (G : BipartiteGraph) (W₀ : List (String × String))
    (seed : String × String) (ln : String) (rest : List String)
    (st : List (String × String) × List String × BipartiteGraph) : Prop where
  wsub : ∀ e ∈ st.1, e ∈ W₀
  wnd : st.1.Nodup
  sat : ∀ l r r', (l, r) ∈ st.1 → (l, r') ∈ W₀ → l ≠ ln → (l, r') ∈ st.1
  lnrest : ∀ r, (ln, r) ∈ st.1 → r ∈ rest
  part : ∀ l r w, hasEdgeW st.2.2 l r w ↔
    ((l, r) ∈ W₀ ∧ (l, r) ∉ st.1 ∧ w = weightOf G l r)
  conn : ∀ l r w, hasEdgeW st.2.2 l r w → connIn G seed (l, r)
  qconn : ∀ q ∈ st.2.1, ∃ r, (q, r) ∈ W₀ ∧ connIn G seed (q, r)
  clos : ∀ l r, (l, r) ∈ W₀ → (l, r) ∉ st.1 → ∀ l', (l', r) ∈ st.1 →
    l' ∈ st.2.1 ∨ l' = ln
  seedq : seed ∈ st.1 → seed.1 ∈ st.2.1 ∨ seed.1 = ln
  lnconn : ∃ r, (ln, r) ∈ W₀ ∧ connIn G seed (ln, r)

end SimrankPy

/-! ## Theorems -/

namespace SimrankPy

attribute [local semireducible] Rat.add Rat.mul Rat.inv Rat.sub

/-! ### Generic list-matrix toolkit -/

theorem getD_set_self {α : Type} (l : List α) (i : ℕ) (v d : α) (h : i < l.length) :
    (l.set i v).getD i d = v := by
  simp [List.getD_eq_getElem?_getD, List.getElem?_set_self h]

theorem getD_set_ne {α : Type} (l : List α) {i j : ℕ} (v d : α) (h : i ≠ j) :
    (l.set i v).getD j d = l.getD j d := by
  simp [List.getD_eq_getElem?_getD, List.getElem?_set_ne h]

/-- Reading back the cell just written, provided it is in range. -/
theorem gget_gset_self {α : Type} (M : List (List α)) (i j : ℕ) (v d : α)
    (hi : i < M.length) (hj : j < (M.getD i []).length) :
    (((M.set i ((M.getD i []).set j v)).getD i []).getD j d) = v := by
  rw [getD_set_self _ _ _ _ hi, getD_set_self _ _ _ _ hj]

/-- Reading any other cell after a write. -/
theorem gget_gset_ne {α : Type} (M : List (List α)) {i j i' j' : ℕ} (v d : α)
    (h : i ≠ i' ∨ j ≠ j') :
    (((M.set i ((M.getD i []).set j v)).getD i' []).getD j' d) =
    ((M.getD i' []).getD j' d) := by
  rcases h with h | h
  · rw [getD_set_ne _ _ _ h]
  · by_cases hii : i = i'
    · subst hii
      by_cases hlen : i < M.length
      · rw [getD_set_self _ _ _ _ hlen, getD_set_ne _ _ _ h]
      · rw [List.set_eq_of_length_le (Nat.le_of_not_lt hlen)]
    · rw [getD_set_ne _ _ _ hii]

theorem Shape.row_len {α : Type} {M : List (List α)} {nr nc : ℕ}
    (h : Shape M nr nc) {i : ℕ} (hi : i < nr) : (M.getD i []).length = nc := by
  have hlen : i < M.length := h.1 ▸ hi
  rw [List.getD_eq_getElem?_getD, List.getElem?_eq_getElem hlen]
  exact h.2 _ (List.getElem_mem hlen)

theorem Shape.gset {α : Type} {M : List (List α)} {nr nc : ℕ}
    (h : Shape M nr nc) (i j : ℕ) (v : α) :
    Shape (M.set i ((M.getD i []).set j v)) nr nc := by
  by_cases hi : i < M.length
  · refine ⟨by simpa using h.1, fun row hrow => ?_⟩
    rcases List.mem_or_eq_of_mem_set hrow with hmem | rfl
    · exact h.2 _ hmem
    · rw [List.length_set]
      exact h.row_len (h.1 ▸ hi)
  · rw [List.set_eq_of_length_le (Nat.le_of_not_lt hi)]
    exact h

theorem shape_ozeros (n m : ℕ) : Shape (ozeros n m) n m := by
  constructor
  · simp [ozeros]
  · intro row hrow
    simp only [ozeros, List.mem_map] at hrow
    obtain ⟨i, _, rfl⟩ := hrow
    simp

theorem shape_oidentity (n : ℕ) : Shape (oidentity n) n n := by
  constructor
  · simp [oidentity]
  · intro row hrow
    simp only [oidentity, List.mem_map] at hrow
    obtain ⟨i, _, rfl⟩ := hrow
    simp

theorem shape_identityMat (n : ℕ) : Shape (identityMat n) n n := by
  constructor
  · simp [identityMat]
  · intro row hrow
    simp only [identityMat, List.mem_map] at hrow
    obtain ⟨i, _, rfl⟩ := hrow
    simp

/-! ### Index map lemmas -/

theorem idx_lt_length {keys : List String} {u : String} (hu : u ∈ keys) :
    idx keys u < keys.length :=
  List.findIdx_lt_length_of_exists ⟨u, hu, by simp⟩

theorem getD_idx {keys : List String} {u : String} (hu : u ∈ keys) (d : String) :
    keys.getD (idx keys u) d = u := by
  have hlt : idx keys u < keys.length := idx_lt_length hu
  rw [List.getD_eq_getElem?_getD, List.getElem?_eq_getElem hlt]
  have := @List.findIdx_getElem _ (· = u) keys hlt
  simpa using this

theorem idx_inj {keys : List String} {u v : String} (hu : u ∈ keys) (hv : v ∈ keys)
    (h : idx keys u = idx keys v) : u = v := by
  have h1 := getD_idx hu ""
  have h2 := getD_idx hv ""
  rw [h] at h1
  rw [h1] at h2
  exact h2

/-! ### Cell access bridges for the concrete matrix types -/

theorem omget_omset_self {M : OMat} {nr nc : ℕ} (h : Shape M nr nc) {i j : ℕ}
    (hi : i < nr) (hj : j < nc) (v : Option ℚ) : omget (omset M i j v) i j = v :=
  gget_gset_self M i j v (some 0) (h.1 ▸ hi) (by rw [h.row_len hi]; exact hj)

theorem omget_omset_ne (M : OMat) {i j i' j' : ℕ} (v : Option ℚ)
    (h : i ≠ i' ∨ j ≠ j') : omget (omset M i j v) i' j' = omget M i' j' :=
  gget_gset_ne M v (some 0) h

theorem Shape.omset {M : OMat} {nr nc : ℕ} (h : Shape M nr nc) (i j : ℕ)
    (v : Option ℚ) : Shape (omset M i j v) nr nc := h.gset i j v

theorem mget_mset_self {M : QMat} {nr nc : ℕ} (h : Shape M nr nc) {i j : ℕ}
    (hi : i < nr) (hj : j < nc) (v : ℚ) : mget (mset M i j v) i j = v :=
  gget_gset_self M i j v 0 (h.1 ▸ hi) (by rw [h.row_len hi]; exact hj)

theorem mget_mset_ne (M : QMat) {i j i' j' : ℕ} (v : ℚ)
    (h : i ≠ i' ∨ j ≠ j') : mget (mset M i j v) i' j' = mget M i' j' :=
  gget_gset_ne M v 0 h

theorem Shape.mset {M : QMat} {nr nc : ℕ} (h : Shape M nr nc) (i j : ℕ)
    (v : ℚ) : Shape (mset M i j v) nr nc := h.gset i j v

theorem omget_oidentity {n i j : ℕ} (hi : i < n) (hj : j < n) :
    omget (oidentity n) i j = if i = j then some 1 else some 0 := by
  unfold omget oidentity
  simp only [List.getD_eq_getElem?_getD, List.getElem?_map, List.getElem?_range hi,
    List.getElem?_range hj, Option.map_some', Option.getD_some]

theorem mget_identityMat {n i j : ℕ} (hi : i < n) (hj : j < n) :
    mget (identityMat n) i j = if i = j then 1 else 0 := by
  unfold mget identityMat
  simp only [List.getD_eq_getElem?_getD, List.getElem?_map, List.getElem?_range hi,
    List.getElem?_range hj, Option.map_some', Option.getD_some]

theorem omget_evMul {S : OMat} {E : QMat} {n i j : ℕ} (hi : i < n) (hj : j < n) :
    omget (evMul S E n) i j = omul (omget S i j) (some (mget E i j)) := by
  conv_lhs =>
    unfold omget evMul
  simp only [List.getD_eq_getElem?_getD, List.getElem?_map, List.getElem?_range hi,
    List.getElem?_range hj, Option.map_some', Option.getD_some]

/-- Fold invariant preservation with an explicitly supplied predicate. -/
theorem foldl_preserve {α β : Type} (P : β → Prop) (f : β → α → β) (l : List α)
    (b : β) (hb : P b) (hf : ∀ x, P x → ∀ a ∈ l, P (f x a)) : P (l.foldl f b) := by
  induction l generalizing b with
  | nil => exact hb
  | cons a t ih =>
    exact ih (f b a) (hf b hb a (List.Mem.head _))
      (fun x hx a' ha' => hf x hx a' (List.Mem.tail _ ha'))

/-! ### Boolean flag matrix access -/

theorem bget_bset_self {M : List (List Bool)} {nr nc : ℕ} (h : Shape M nr nc)
    {i j : ℕ} (hi : i < nr) (hj : j < nc) (v : Bool) :
    bget (bset M i j v) i j = v :=
  gget_gset_self M i j v false (h.1 ▸ hi) (by rw [h.row_len hi]; exact hj)

theorem bget_bset_ne (M : List (List Bool)) {i j i' j' : ℕ} (v : Bool)
    (h : i ≠ i' ∨ j ≠ j') : bget (bset M i j v) i' j' = bget M i' j' :=
  gget_gset_ne M v false h

theorem Shape.bset {M : List (List Bool)} {nr nc : ℕ} (h : Shape M nr nc)
    (i j : ℕ) (v : Bool) : Shape (bset M i j v) nr nc := h.gset i j v

theorem bget_falseInit (n i j : ℕ) :
    bget ((List.range n).map (fun _ => (List.range n).map (fun _ => false))) i j
      = false := by
  unfold bget
  simp only [List.getD_eq_getElem?_getD, List.getElem?_map]
  cases (List.range n)[i]? with
  | none => rfl
  | some k =>
    simp only [Option.map_some', Option.getD_some, List.getElem?_map]
    cases (List.range n)[j]? <;> rfl

theorem shape_falseInit (n : ℕ) :
    Shape ((List.range n).map (fun _ => (List.range n).map (fun _ => false))) n n := by
  constructor
  · simp
  · intro row hrow
    simp only [List.mem_map] at hrow
    obtain ⟨i, _, rfl⟩ := hrow
    simp

/-! ### Characterization of the evidence matrix -/

/-- Intersection counting is symmetric for duplicate-free key lists. -/
theorem interCount_comm {l1 l2 : List String} (h1 : l1.Nodup) (h2 : l2.Nodup) :
    interCount l1 l2 = interCount l2 l1 := by
  unfold interCount
  have e1 : ∀ (a : List String) (b : List String),
      a.filter (fun x => b.contains x) = a.filter (fun x => decide (x ∈ b)) := by
    intro a b
    apply List.filter_congr
    intro x _
    simp
  rw [e1 l1 l2, e1 l2 l1]
  have c1 : (l1.filter (fun x => decide (x ∈ l2))).toFinset = l1.toFinset ∩ l2.toFinset := by
    ext x
    simp [List.mem_filter]
  have c2 : (l2.filter (fun x => decide (x ∈ l1))).toFinset = l2.toFinset ∩ l1.toFinset := by
    ext x
    simp [List.mem_filter]
  have n1 : (l1.filter (fun x => decide (x ∈ l2))).Nodup := h1.filter _
  have n2 : (l2.filter (fun x => decide (x ∈ l1))).Nodup := h2.filter _
  rw [← List.toFinset_card_of_nodup n1, ← List.toFinset_card_of_nodup n2, c1, c2,
    Finset.inter_comm]

/-- The evidence value of a pair is symmetric for duplicate-free neighbor
key lists. -/
theorem evidenceVal_comm {l1 l2 : List String} (h1 : l1.Nodup) (h2 : l2.Nodup) :
    evidenceVal l1 l2 = evidenceVal l2 l1 := by
  unfold evidenceVal
  rw [interCount_comm h1 h2]
  by_cases hz : l1.length = 0 ∨ l2.length = 0
  · rw [if_pos hz, if_pos (Or.symm hz)]
  · rw [if_neg hz, if_neg (fun hc => hz (Or.symm hc))]

theorem evStep_shape (keys : List String) (nf : String → List String)
    {st : QMat × List (List Bool)} (h1 : Shape st.1 keys.length keys.length)
    (h2 : Shape st.2 keys.length keys.length) (uv : String × String) :
    Shape (evStep keys nf st uv).1 keys.length keys.length ∧
    Shape (evStep keys nf st uv).2 keys.length keys.length := by
  unfold evStep
  split
  · exact ⟨h1, h2⟩
  · split
    · exact ⟨h1, h2⟩
    · exact ⟨(h1.mset _ _ _).mset _ _ _, (h2.bset _ _ _).bset _ _ _⟩

/-- Writing true into a flag matrix never turns a true cell false. -/
theorem bget_bset_true (M : List (List Bool)) (a b : ℕ) {i j : ℕ}
    (h : bget M i j = true) : bget (bset M a b true) i j = true := by
  unfold bget bset at *
  by_cases ha : a = i
  · subst ha
    by_cases hM : a < M.length
    · rw [getD_set_self _ _ _ _ hM]
      by_cases hb : b = j
      · subst hb
        by_cases hr : b < (M.getD a []).length
        · rw [getD_set_self _ _ _ _ hr]
        · rw [List.set_eq_of_length_le (Nat.le_of_not_lt hr)]
          exact h
      · rw [getD_set_ne _ _ _ hb]
        exact h
    · rw [List.set_eq_of_length_le (Nat.le_of_not_lt hM)]
      exact h
  · rw [getD_set_ne _ _ _ ha]
    exact h

theorem evStep_mono {keys : List String} {nf : String → List String}
    {st : QMat × List (List Bool)} {i j : ℕ}
    (h : bget st.2 i j = true) (uv : String × String) :
    bget (evStep keys nf st uv).2 i j = true := by
  unfold evStep
  split
  · exact h
  · split
    · exact h
    · exact bget_bset_true _ _ _ (bget_bset_true _ _ _ h)

theorem evStep_sets_flag {keys : List String} {nf : String → List String}
    {st : QMat × List (List Bool)} (hS2 : Shape st.2 keys.length keys.length)
    {q : String × String} (hq1 : q.1 ∈ keys) (hq2 : q.2 ∈ keys) (hne : q.1 ≠ q.2) :
    bget (evStep keys nf st q).2 (idx keys q.1) (idx keys q.2) = true := by
  obtain ⟨a, b⟩ := q
  have hab : idx keys a ≠ idx keys b := fun hc => hne (idx_inj hq1 hq2 hc)
  unfold evStep
  rw [if_neg hne]
  by_cases hflagged : bget st.2 (idx keys a) (idx keys b) = true
  · rw [if_pos hflagged]
    exact hflagged
  · rw [if_neg hflagged]
    show bget (bset (bset st.2 _ _ true) _ _ true) _ _ = true
    rw [bget_bset_ne _ _ (Or.inl (Ne.symm hab))]
    exact bget_bset_self hS2 (idx_lt_length hq1) (idx_lt_length hq2) true

theorem evStep_inv {keys : List String} {nf : String → List String}
    {st : QMat × List (List Bool)}
    (hS1 : Shape st.1 keys.length keys.length)
    (hS2 : Shape st.2 keys.length keys.length)
    (hnf : ∀ s ∈ keys, (nf s).Nodup)
    (hinv : EvInv keys nf st) {q : String × String}
    (hq1 : q.1 ∈ keys) (hq2 : q.2 ∈ keys) :
    EvInv keys nf (evStep keys nf st q) := by
  obtain ⟨a, b⟩ := q
  by_cases hab : a = b
  · unfold evStep
    rw [if_pos hab]
    exact hinv
  · unfold evStep
    rw [if_neg hab]
    by_cases hflagged : bget st.2 (idx keys a) (idx keys b) = true
    · rw [if_pos hflagged]
      exact hinv
    · rw [if_neg hflagged]
      have hia : idx keys a < keys.length := idx_lt_length hq1
      have hib : idx keys b < keys.length := idx_lt_length hq2
      have hab' : idx keys a ≠ idx keys b := fun hc => hab (idx_inj hq1 hq2 hc)
      show EvInv keys nf
        (mset (mset st.1 (idx keys a) (idx keys b) (evidenceVal (nf a) (nf b)))
          (idx keys b) (idx keys a) (evidenceVal (nf a) (nf b)),
         bset (bset st.2 (idx keys a) (idx keys b) true) (idx keys b) (idx keys a) true)
      intro u hu v hv hne hflag
      by_cases c1 : idx keys u = idx keys a ∧ idx keys v = idx keys b
      · have hu_eq : u = a := idx_inj hu hq1 c1.1
        have hv_eq : v = b := idx_inj hv hq2 c1.2
        show mget (mset (mset st.1 _ _ _) _ _ _) _ _ = _
        rw [hu_eq, hv_eq, mget_mset_ne _ _ (Or.inl (Ne.symm hab'))]
        exact mget_mset_self hS1 hia hib _
      · by_cases c2 : idx keys u = idx keys b ∧ idx keys v = idx keys a
        · have hu_eq : u = b := idx_inj hu hq2 c2.1
          have hv_eq : v = a := idx_inj hv hq1 c2.2
          show mget (mset (mset st.1 _ _ _) _ _ _) _ _ = _
          rw [hu_eq, hv_eq, mget_mset_self (hS1.mset _ _ _) hib hia]
          exact evidenceVal_comm (hnf a hq1) (hnf b hq2)
        · have hne1 : idx keys a ≠ idx keys u ∨ idx keys b ≠ idx keys v := by
            rcases Decidable.not_and_iff_or_not.1 c1 with h | h
            · exact Or.inl (fun hc => h hc.symm)
            · exact Or.inr (fun hc => h hc.symm)
          have hne2 : idx keys b ≠ idx keys u ∨ idx keys a ≠ idx keys v := by
            rcases Decidable.not_and_iff_or_not.1 c2 with h | h
            · exact Or.inl (fun hc => h hc.symm)
            · exact Or.inr (fun hc => h hc.symm)
          rw [bget_bset_ne _ _ hne2, bget_bset_ne _ _ hne1] at hflag
          show mget (mset (mset st.1 _ _ _) _ _ _) _ _ = _
          rw [mget_mset_ne _ _ hne2, mget_mset_ne _ _ hne1]
          exact hinv u hu v hv hne hflag

theorem evFold_mono {keys : List String} {nf : String → List String}
    (l : List (String × String)) (st : QMat × List (List Bool)) {i j : ℕ}
    (h : bget st.2 i j = true) :
    bget (l.foldl (evStep keys nf) st).2 i j = true :=
  foldl_preserve (fun (x : QMat × List (List Bool)) => bget x.2 i j = true)
    _ l st h (fun x hx a _ => evStep_mono hx a)

theorem evFold_main (keys : List String) (nf : String → List String)
    (hnf : ∀ s ∈ keys, (nf s).Nodup) :
    ∀ (l : List (String × String)) (st : QMat × List (List Bool)),
      (∀ p ∈ l, p.1 ∈ keys ∧ p.2 ∈ keys) →
      Shape st.1 keys.length keys.length →
      Shape st.2 keys.length keys.length →
      EvInv keys nf st →
      Shape (l.foldl (evStep keys nf) st).1 keys.length keys.length ∧
      Shape (l.foldl (evStep keys nf) st).2 keys.length keys.length ∧
      EvInv keys nf (l.foldl (evStep keys nf) st) ∧
      (∀ p ∈ l, p.1 ≠ p.2 →
        bget (l.foldl (evStep keys nf) st).2 (idx keys p.1) (idx keys p.2) = true) := by
  intro l
  induction l with
  | nil =>
    intro st _ hS1 hS2 hinv
    exact ⟨hS1, hS2, hinv, fun p hp => absurd hp (List.not_mem_nil p)⟩
  | cons q t ih =>
    intro st hmem hS1 hS2 hinv
    have hq := hmem q (List.Mem.head _)
    have hsh := evStep_shape keys nf hS1 hS2 q
    have hinv' := evStep_inv hS1 hS2 hnf hinv hq.1 hq.2
    have hrest := ih (evStep keys nf st q)
      (fun p hp => hmem p (List.Mem.tail _ hp)) hsh.1 hsh.2 hinv'
    refine ⟨hrest.1, hrest.2.1, hrest.2.2.1, fun p hp hpne => ?_⟩
    cases hp with
    | head => exact evFold_mono t _ (evStep_sets_flag hS2 hq.1 hq.2 hpne)
    | tail _ hp => exact hrest.2.2.2 p hp hpne

/-- The evidence matrix entry of any pair of distinct member nodes is
exactly the evidence value computed from their neighbor key sets. -/
theorem calcEvidence_entry (keys : List String) (nf : String → List String)
    (hnf : ∀ s ∈ keys, (nf s).Nodup) {u v : String}
    (hu : u ∈ keys) (hv : v ∈ keys) (hne : u ≠ v) :
    mget (calcEvidence keys nf) (idx keys u) (idx keys v) =
      evidenceVal (nf u) (nf v) := by
  unfold calcEvidence
  have hmain := evFold_main keys nf hnf (keys.product keys)
    (identityMat keys.length,
     (List.range keys.length).map (fun _ => (List.range keys.length).map (fun _ => false)))
    (fun p hp => by
      obtain ⟨a, b⟩ := p
      exact List.pair_mem_product.1 hp)
    (shape_identityMat keys.length) (shape_falseInit keys.length)
    (fun u' _ v' _ _ hfl => by
      rw [bget_falseInit] at hfl
      exact absurd hfl (by simp))
  exact hmain.2.2.1 u hu v hv hne
    (hmain.2.2.2 (u, v) (List.pair_mem_product.2 ⟨hu, hv⟩) hne)

/-! ### Row-write fold characterization (normalized weights and
transition probabilities) -/

theorem idx_not_mem {keys : List String} {u : String} (h : u ∉ keys) :
    idx keys u = keys.length := by
  unfold idx
  rw [List.findIdx_eq_length]
  intro x hx
  simp only [decide_eq_false_iff_not]
  exact fun hc => h (hc ▸ hx)

/-- Distinct strings get distinct indices as soon as one of them is a
member: a missing string is sent to the list length, beyond any member. -/
theorem idx_ne_of_ne {keys : List String} {n n' : String} (hn : n ∈ keys)
    (hne : n' ≠ n) : idx keys n' ≠ idx keys n := by
  by_cases hm : n' ∈ keys
  · exact fun hc => hne (idx_inj hm hn hc)
  · rw [idx_not_mem hm]
    have := idx_lt_length hn
    omega

/-- Reading one row entry after folding writes of value f over a
duplicate-free neighbor list: the entry of a member pair is its written
value. -/
theorem rowWriteFold_entry (tgtKeys : List String) (ni : ℕ)
    (f : String × ℚ → Option ℚ) :
    ∀ (nb : List (String × ℚ)) (M : OMat) {nr : ℕ},
      Shape M nr tgtKeys.length → ni < nr →
      ∀ {p₀ : String × ℚ}, p₀ ∈ nb → (nb.map Prod.fst).Nodup →
      (∀ p ∈ nb, p.1 ∈ tgtKeys) →
      omget (nb.foldl (fun M' p => omset M' ni (idx tgtKeys p.1) (f p)) M)
        ni (idx tgtKeys p₀.1) = f p₀ := by
  intro nb
  induction nb with
  | nil => intro M nr _ _ p₀ hmem; exact absurd hmem (List.not_mem_nil p₀)
  | cons q t ih =>
    intro M nr hS hi p₀ hmem hnd hin
    have hq_tgt : q.1 ∈ tgtKeys := hin q (List.Mem.head _)
    cases hmem with
    | head =>
      refine foldl_preserve
        (fun M' => omget M' ni (idx tgtKeys q.1) = f q) _ t _ ?_ ?_
      · exact omget_omset_self hS hi (idx_lt_length hq_tgt) _
      · intro M' hM' p hp
        show omget (omset M' ni (idx tgtKeys p.1) (f p)) ni (idx tgtKeys q.1) = f q
        have hp_ne : p.1 ≠ q.1 := by
          intro hc
          have hmem2 : q.1 ∈ t.map Prod.fst := hc ▸ List.mem_map_of_mem Prod.fst hp
          exact (List.nodup_cons.1 (by simpa using hnd)).1 hmem2
        rw [omget_omset_ne _ _ (Or.inr (idx_ne_of_ne hq_tgt hp_ne))]
        exact hM'
    | tail _ hmem' =>
      exact ih (omset M ni (idx tgtKeys q.1) (f q)) (hS.omset _ _ _) hi hmem'
        (by simpa using (List.nodup_cons.1 (by simpa using hnd)).2)
        (fun p hp => hin p (List.Mem.tail _ hp))

/-- Such a fold leaves every other row untouched. -/
theorem rowWriteFold_other (tgtKeys : List String) (ni : ℕ)
    (f : String × ℚ → Option ℚ) (nb : List (String × ℚ)) (M : OMat)
    {i j : ℕ} (hne : i ≠ ni) :
    omget (nb.foldl (fun M' p => omset M' ni (idx tgtKeys p.1) (f p)) M) i j =
      omget M i j :=
  foldl_preserve (fun M' => omget M' i j = omget M i j) _ nb M rfl
    (fun M' hM' p _ => by
      show omget (omset M' ni (idx tgtKeys p.1) (f p)) i j = omget M i j
      rw [omget_omset_ne _ _ (Or.inl (Ne.symm hne))]
      exact hM')

theorem rowWriteFold_shape (tgtKeys : List String) (ni : ℕ)
    (f : String × ℚ → Option ℚ) (nb : List (String × ℚ)) (M : OMat)
    {nr nc : ℕ} (hS : Shape M nr nc) :
    Shape (nb.foldl (fun M' p => omset M' ni (idx tgtKeys p.1) (f p)) M) nr nc :=
  foldl_preserve (fun M' => Shape M' nr nc) _ nb M hS
    (fun M' hM' p _ => hM'.omset _ _ _)

/-- nwWrite is the row-write lambda with the quotient value. -/
theorem nwWrite_eq (srcIdx : ℕ) (tgtKeys : List String) (total : ℚ) :
    nwWrite srcIdx tgtKeys total =
      fun M p => omset M srcIdx (idx tgtKeys p.1) (pydiv p.2 total) := rfl

/-- The entry of the normalized weight matrix of a member node toward one of
its neighbors is exactly the weight divided by the node's total incident
weight (as a float operation: non-numeric when the total is zero). -/
theorem normWeight_entry (srcKeys tgtKeys : List String)
    (nbrsOf : String → List (String × ℚ)) (hnd : srcKeys.Nodup) {n : String}
    (hn : n ∈ srcKeys) (hnb : ((nbrsOf n).map Prod.fst).Nodup)
    (hsub : ∀ p ∈ nbrsOf n, p.1 ∈ tgtKeys) {p₀ : String × ℚ}
    (hmem : p₀ ∈ nbrsOf n) :
    omget (normWeight srcKeys tgtKeys nbrsOf) (idx srcKeys n) (idx tgtKeys p₀.1) =
      pydiv p₀.2 ((nbrsOf n).map Prod.snd).sum := by
  unfold normWeight
  have main : ∀ (l : List String) (M : OMat),
      Shape M srcKeys.length tgtKeys.length → l.Nodup → n ∈ l →
      omget (l.foldl (nwStep srcKeys tgtKeys nbrsOf) M)
        (idx srcKeys n) (idx tgtKeys p₀.1) =
        pydiv p₀.2 ((nbrsOf n).map Prod.snd).sum := by
    intro l
    induction l with
    | nil => intro M _ _ hmem'; exact absurd hmem' (List.not_mem_nil n)
    | cons m0 t ih =>
      intro M hS hnd' hmem'
      cases hmem' with
      | head =>
        refine foldl_preserve
          (fun M' => omget M' (idx srcKeys n) (idx tgtKeys p₀.1) =
            pydiv p₀.2 ((nbrsOf n).map Prod.snd).sum) _ t _ ?_ ?_
        · show omget ((nbrsOf n).foldl (nwWrite (idx srcKeys n) tgtKeys
            ((nbrsOf n).map Prod.snd).sum) M) _ _ = _
          rw [nwWrite_eq]
          exact rowWriteFold_entry tgtKeys _ _ _ M hS (idx_lt_length hn) hmem hnb hsub
        · intro M' hM' n' hn'
          show omget ((nbrsOf n').foldl (nwWrite (idx srcKeys n') tgtKeys
            ((nbrsOf n').map Prod.snd).sum) M') _ _ = _
          rw [nwWrite_eq]
          have hne : n' ≠ n := by
            intro hc
            exact (List.nodup_cons.1 hnd').1 (hc ▸ hn')
          rw [rowWriteFold_other tgtKeys _ _ _ M' (idx_ne_of_ne hn hne).symm]
          exact hM'
      | tail _ hmem' =>
        refine ih (nwStep srcKeys tgtKeys nbrsOf M m0) ?_ (List.nodup_cons.1 hnd').2 hmem'
        show Shape ((nbrsOf m0).foldl (nwWrite (idx srcKeys m0) tgtKeys
          ((nbrsOf m0).map Prod.snd).sum) M) _ _
        rw [nwWrite_eq]
        exact rowWriteFold_shape tgtKeys _ _ _ M hS
  exact main srcKeys (ozeros srcKeys.length tgtKeys.length)
    (shape_ozeros _ _) hnd hn

/-- tpWrite acts componentwise with the tpVal value. -/
theorem tpWrite_eq (sp : List (Option ℚ)) (normM : OMat) (tgtKeys : List String)
    (ni : ℕ) :
    tpWrite sp normM tgtKeys ni = fun st p =>
      (omset st.1 ni (idx tgtKeys p.1) (tpVal sp normM tgtKeys ni p),
       oadd st.2 (tpVal sp normM tgtKeys ni p)) := rfl

/-- The inner transition fold splits into the matrix write fold and the
probability sum fold. -/
theorem tpFold_split (sp : List (Option ℚ)) (normM : OMat)
    (tgtKeys : List String) (ni : ℕ) :
    ∀ (nb : List (String × ℚ)) (M : OMat) (s : Option ℚ),
      nb.foldl (tpWrite sp normM tgtKeys ni) (M, s) =
      (nb.foldl (fun M' p => omset M' ni (idx tgtKeys p.1) (tpVal sp normM tgtKeys ni p)) M,
       nb.foldl (fun a p => oadd a (tpVal sp normM tgtKeys ni p)) s) := by
  intro nb
  induction nb with
  | nil => intro M s; rfl
  | cons q t ih =>
    intro M s
    show t.foldl _ (tpWrite sp normM tgtKeys ni (M, s) q) = _
    rw [tpWrite_eq]
    exact ih _ _

/-- Characterization of one direction of the transition probability
computation, for a member node: the matrix row holds the tpVal of each
neighbor, and the self-transition cell holds 1 minus the accumulated sum. -/
theorem tpFold_fst (sp : List (Option ℚ)) (normM : OMat)
    (tgtKeys : List String) (ni : ℕ) (nb : List (String × ℚ)) (M : OMat)
    (sm : Option ℚ) :
    (nb.foldl (tpWrite sp normM tgtKeys ni) (M, sm)).1 =
    nb.foldl (fun M' p => omset M' ni (idx tgtKeys p.1) (tpVal sp normM tgtKeys ni p)) M := by
  rw [tpFold_split]

theorem tpFold_snd (sp : List (Option ℚ)) (normM : OMat)
    (tgtKeys : List String) (ni : ℕ) (nb : List (String × ℚ)) (M : OMat)
    (sm : Option ℚ) :
    (nb.foldl (tpWrite sp normM tgtKeys ni) (M, sm)).2 =
    nb.foldl (fun a p => oadd a (tpVal sp normM tgtKeys ni p)) sm := by
  rw [tpFold_split]

theorem transSide_entry (sp : List (Option ℚ)) (normM : OMat)
    (srcKeys tgtKeys : List String) (nbrsOf : String → List (String × ℚ))
    (hnd : srcKeys.Nodup) {n : String} (hn : n ∈ srcKeys)
    (hnb : ((nbrsOf n).map Prod.fst).Nodup)
    (hsub : ∀ p ∈ nbrsOf n, p.1 ∈ tgtKeys) :
    (∀ p₀ ∈ nbrsOf n,
      omget (transSide sp normM srcKeys tgtKeys nbrsOf).1
        (idx srcKeys n) (idx tgtKeys p₀.1) =
        tpVal sp normM tgtKeys (idx srcKeys n) p₀) ∧
    (transSide sp normM srcKeys tgtKeys nbrsOf).2.getD (idx srcKeys n) (some 0) =
      osub (some 1)
        ((nbrsOf n).foldl
          (fun a p => oadd a (tpVal sp normM tgtKeys (idx srcKeys n) p)) (some 0)) := by
  unfold transSide
  have main : ∀ (l : List String) (acc : OMat × List (Option ℚ)),
      Shape acc.1 srcKeys.length tgtKeys.length →
      acc.2.length = srcKeys.length → l.Nodup → n ∈ l →
      (∀ p₀ ∈ nbrsOf n,
        omget (l.foldl (tpStep sp normM srcKeys tgtKeys nbrsOf) acc).1
          (idx srcKeys n) (idx tgtKeys p₀.1) =
          tpVal sp normM tgtKeys (idx srcKeys n) p₀) ∧
      (l.foldl (tpStep sp normM srcKeys tgtKeys nbrsOf) acc).2.getD
          (idx srcKeys n) (some 0) =
        osub (some 1)
          ((nbrsOf n).foldl
            (fun a p => oadd a (tpVal sp normM tgtKeys (idx srcKeys n) p)) (some 0)) := by
    intro l
    induction l with
    | nil => intro acc _ _ _ hmem'; exact absurd hmem' (List.not_mem_nil n)
    | cons m0 t ih =>
      intro acc hS hlen hnd' hmem'
      cases hmem' with
      | head =>
        refine foldl_preserve
          (fun (acc' : OMat × List (Option ℚ)) =>
            (∀ p₀ ∈ nbrsOf n,
              omget acc'.1 (idx srcKeys n) (idx tgtKeys p₀.1) =
                tpVal sp normM tgtKeys (idx srcKeys n) p₀) ∧
            acc'.2.getD (idx srcKeys n) (some 0) =
              osub (some 1)
                ((nbrsOf n).foldl
                  (fun a p => oadd a (tpVal sp normM tgtKeys (idx srcKeys n) p))
                  (some 0))) _ t _ ?_ ?_
        · refine ⟨fun p₀ hp₀ => ?_, ?_⟩
          · show omget ((nbrsOf n).foldl
              (tpWrite sp normM tgtKeys (idx srcKeys n)) (acc.1, some 0)).1
              (idx srcKeys n) (idx tgtKeys p₀.1) = _
            rw [tpFold_fst]
            exact rowWriteFold_entry tgtKeys _ _ _ acc.1 hS (idx_lt_length hn)
              hp₀ hnb hsub
          · show (acc.2.set (idx srcKeys n)
              (osub (some 1) ((nbrsOf n).foldl
                (tpWrite sp normM tgtKeys (idx srcKeys n)) (acc.1, some 0)).2)).getD
              (idx srcKeys n) (some 0) = _
            rw [tpFold_snd, getD_set_self _ _ _ _ (hlen ▸ idx_lt_length hn)]
        · intro acc' hacc' n' hn'
          have hne : n' ≠ n := by
            intro hc
            exact (List.nodup_cons.1 hnd').1 (hc ▸ hn')
          have hidx : idx srcKeys n' ≠ idx srcKeys n := idx_ne_of_ne hn hne
          refine ⟨fun p₀ hp₀ => ?_, ?_⟩
          · show omget ((nbrsOf n').foldl
              (tpWrite sp normM tgtKeys (idx srcKeys n')) (acc'.1, some 0)).1
              (idx srcKeys n) (idx tgtKeys p₀.1) = _
            rw [tpFold_fst, rowWriteFold_other tgtKeys _ _ _ acc'.1 hidx.symm]
            exact hacc'.1 p₀ hp₀
          · show (acc'.2.set (idx srcKeys n')
              (osub (some 1) ((nbrsOf n').foldl
                (tpWrite sp normM tgtKeys (idx srcKeys n')) (acc'.1, some 0)).2)).getD
              (idx srcKeys n) (some 0) = _
            rw [getD_set_ne _ _ _ hidx]
            exact hacc'.2
      | tail _ hmem' =>
        refine ih (tpStep sp normM srcKeys tgtKeys nbrsOf acc m0) ?_ ?_
          (List.nodup_cons.1 hnd').2 hmem'
        · show Shape ((nbrsOf m0).foldl (tpWrite sp normM tgtKeys
            (idx srcKeys m0)) (acc.1, some 0)).1 _ _
          rw [tpFold_fst]
          exact rowWriteFold_shape tgtKeys _ _ _ acc.1 hS
        · show (acc.2.set _ _).length = _
          rw [List.length_set]
          exact hlen
  exact main srcKeys
    (ozeros srcKeys.length tgtKeys.length, List.replicate srcKeys.length (some 0))
    (shape_ozeros _ _) (List.length_replicate _ _) hnd hn

theorem omul_none_right (x : Option ℚ) : omul x none = none := by
  cases x <;> rfl

theorem oadd_none_left (x : Option ℚ) : oadd none x = none := by
  cases x <;> rfl

theorem oadd_none_right (x : Option ℚ) : oadd x none = none := by
  cases x <;> rfl

/-- A non-numeric term anywhere in an accumulating float sum poisons the
whole sum. -/
theorem oaddFold_none {α : Type} (f : α → Option ℚ) :
    ∀ (l : List α) (acc : Option ℚ), (∃ p ∈ l, f p = none) →
      l.foldl (fun a p => oadd a (f p)) acc = none := by
  intro l
  induction l with
  | nil => intro acc h; obtain ⟨p, hp, _⟩ := h; exact absurd hp (List.not_mem_nil p)
  | cons q t ih =>
    intro acc h
    by_cases hq : f q = none
    · show t.foldl _ (oadd acc (f q)) = none
      rw [hq, oadd_none_right]
      exact foldl_preserve (fun (a : Option ℚ) => a = none) _ t none rfl
        (fun a ha p _ => by rw [ha, oadd_none_left])
    · obtain ⟨p, hp, hfp⟩ := h
      cases hp with
      | head => exact absurd hfp hq
      | tail _ hp' => exact ih (oadd acc (f q)) ⟨p, hp', hfp⟩

/-! ### Unit-interval bookkeeping -/

theorem EntryIn01.zero : EntryIn01 (some 0) := ⟨0, rfl, le_refl 0, by norm_num⟩

theorem EntryIn01.one : EntryIn01 (some 1) := ⟨1, rfl, by norm_num, le_refl 1⟩

theorem omatIn01_read {M : OMat} (h : OMatIn01 M) (i j : ℕ) :
    EntryIn01 (omget M i j) := by
  unfold omget
  simp only [List.getD_eq_getElem?_getD]
  by_cases hi : i < M.length
  · rw [List.getElem?_eq_getElem hi, Option.getD_some]
    have hrow := h M[i] (List.getElem_mem hi)
    by_cases hj : j < M[i].length
    · rw [List.getElem?_eq_getElem hj, Option.getD_some]
      exact hrow _ (List.getElem_mem hj)
    · rw [List.getElem?_eq_none (Nat.le_of_not_lt hj)]
      exact EntryIn01.zero
  · rw [List.getElem?_eq_none (Nat.le_of_not_lt hi)]
    show EntryIn01 (some 0)
    exact EntryIn01.zero

theorem qmatIn01_read {M : QMat} (h : QMatIn01 M) (i j : ℕ) :
    0 ≤ mget M i j ∧ mget M i j ≤ 1 := by
  unfold mget
  simp only [List.getD_eq_getElem?_getD]
  by_cases hi : i < M.length
  · rw [List.getElem?_eq_getElem hi, Option.getD_some]
    have hrow := h M[i] (List.getElem_mem hi)
    by_cases hj : j < M[i].length
    · rw [List.getElem?_eq_getElem hj, Option.getD_some]
      exact hrow _ (List.getElem_mem hj)
    · rw [List.getElem?_eq_none (Nat.le_of_not_lt hj)]
      norm_num
  · rw [List.getElem?_eq_none (Nat.le_of_not_lt hi)]
    show 0 ≤ (0 : ℚ) ∧ (0 : ℚ) ≤ 1
    norm_num

theorem omatIn01_omset {M : OMat} (h : OMatIn01 M) {v : Option ℚ}
    (hv : EntryIn01 v) (i j : ℕ) : OMatIn01 (omset M i j v) := by
  intro row hrow
  rcases List.mem_or_eq_of_mem_set hrow with hmem | rfl
  · exact h row hmem
  · intro e he
    rcases List.mem_or_eq_of_mem_set he with hmem' | rfl
    · by_cases hi : i < M.length
      · exact h (M.getD i []) (by
          rw [List.getD_eq_getElem?_getD, List.getElem?_eq_getElem hi]
          exact List.getElem_mem hi) e hmem'
      · rw [List.getD_eq_getElem?_getD,
          List.getElem?_eq_none (Nat.le_of_not_lt hi)] at hmem'
        exact absurd hmem' (List.not_mem_nil e)
    · exact hv

theorem qmatIn01_mset {M : QMat} (h : QMatIn01 M) {v : ℚ}
    (hv : 0 ≤ v ∧ v ≤ 1) (i j : ℕ) : QMatIn01 (mset M i j v) := by
  intro row hrow
  rcases List.mem_or_eq_of_mem_set hrow with hmem | rfl
  · exact h row hmem
  · intro e he
    rcases List.mem_or_eq_of_mem_set he with hmem' | rfl
    · by_cases hi : i < M.length
      · exact h (M.getD i []) (by
          rw [List.getD_eq_getElem?_getD, List.getElem?_eq_getElem hi]
          exact List.getElem_mem hi) e hmem'
      · rw [List.getD_eq_getElem?_getD,
          List.getElem?_eq_none (Nat.le_of_not_lt hi)] at hmem'
        exact absurd hmem' (List.not_mem_nil e)
    · exact hv

theorem oidentity_in01 (n : ℕ) : OMatIn01 (oidentity n) := by
  intro row hrow
  simp only [oidentity, List.mem_map] at hrow
  obtain ⟨i, _, rfl⟩ := hrow
  intro e he
  simp only [List.mem_map] at he
  obtain ⟨j, _, rfl⟩ := he
  by_cases hij : i = j
  · rw [if_pos hij]
    exact EntryIn01.one
  · rw [if_neg hij]
    exact EntryIn01.zero

theorem identityMat_in01 (n : ℕ) : QMatIn01 (identityMat n) := by
  intro row hrow
  simp only [identityMat, List.mem_map] at hrow
  obtain ⟨i, _, rfl⟩ := hrow
  intro e he
  simp only [List.mem_map] at he
  obtain ⟨j, _, rfl⟩ := he
  by_cases hij : i = j
  · rw [if_pos hij]
    norm_num
  · rw [if_neg hij]
    norm_num

theorem calculated_evidence_in01 :
    ∀ x ∈ calculated_evidence, 0 ≤ x ∧ x ≤ 1 := by decide

theorem evidenceVal_in01 (uns vns : List String) :
    0 ≤ evidenceVal uns vns ∧ evidenceVal uns vns ≤ 1 := by
  unfold evidenceVal
  split
  · norm_num
  · split
    · set k := interCount uns vns
      by_cases hk : k < calculated_evidence.length
      · rw [List.getD_eq_getElem?_getD, List.getElem?_eq_getElem hk]
        exact calculated_evidence_in01 _ (List.getElem_mem hk)
      · rw [List.getD_eq_getElem?_getD, List.getElem?_eq_none (Nat.le_of_not_lt hk)]
        norm_num
    · norm_num

theorem calcEvidence_in01 (keys : List String) (nf : String → List String) :
    QMatIn01 (calcEvidence keys nf) := by
  unfold calcEvidence
  have main := foldl_preserve
    (fun (st : QMat × List (List Bool)) => QMatIn01 st.1) (evStep keys nf)
    (keys.product keys)
    (identityMat keys.length,
     (List.range keys.length).map (fun _ => (List.range keys.length).map (fun _ => false)))
    (identityMat_in01 _)
    (fun st hst uv _ => by
      unfold evStep
      split
      · exact hst
      · split
        · exact hst
        · exact qmatIn01_mset (qmatIn01_mset hst (evidenceVal_in01 _ _) _ _) (evidenceVal_in01 _ _) _ _)
  exact main

/-! ### List sum lemmas for the substochastic bound -/

theorem sum_map_mul_left_q {α : Type} (l : List α) (g : α → ℚ) (c : ℚ) :
    (l.map (fun b => c * g b)).sum = c * (l.map g).sum := by
  induction l with
  | nil => simp
  | cons a t ih => simp [ih, mul_add]

theorem sum_map_div_q {α : Type} (l : List α) (g : α → ℚ) (t : ℚ) :
    (l.map (fun p => g p / t)).sum = (l.map g).sum / t := by
  induction l with
  | nil => simp
  | cons a s ih => simp [ih, add_div]

theorem list_product_cons {α β : Type} (a : α) (t : List α) (l₂ : List β) :
    (a :: t).product l₂ = l₂.map (Prod.mk a) ++ t.product l₂ := rfl

theorem product_map {α β γ δ : Type} (f : α → β) (g : γ → δ) :
    ∀ (l₁ : List α) (l₂ : List γ),
      (l₁.map f).product (l₂.map g) = (l₁.product l₂).map (Prod.map f g) := by
  intro l₁ l₂
  induction l₁ with
  | nil => rfl
  | cons a t ih =>
    rw [List.map_cons, list_product_cons, list_product_cons, List.map_append, ih,
      List.map_map, List.map_map]
    rfl

theorem sum_map_product {α β : Type} (f : α → ℚ) (g : β → ℚ) :
    ∀ (l₁ : List α) (l₂ : List β),
      ((l₁.product l₂).map (fun q => f q.1 * g q.2)).sum =
        (l₁.map f).sum * (l₂.map g).sum := by
  intro l₁ l₂
  induction l₁ with
  | nil => simp [show ([] : List α).product l₂ = [] from rfl]
  | cons a t ih =>
    rw [list_product_cons, List.map_append, List.sum_append, ih, List.map_map]
    have hcomp : ((fun (q : α × β) => f q.1 * g q.2) ∘ Prod.mk a) =
        fun b => f a * g b := rfl
    rw [hcomp, sum_map_mul_left_q, List.map_cons, List.sum_cons]
    ring

/-- Folding float additions of numeric bounded terms yields a numeric sum
bounded by the sum of the bounds. -/
theorem oaddFold_bound {α : Type} (f : α → Option ℚ) (bnd : α → ℚ) :
    ∀ (l : List α) (s : ℚ),
      (∀ p ∈ l, ∃ t, f p = some t ∧ 0 ≤ t ∧ t ≤ bnd p) →
      ∃ σ, l.foldl (fun a p => oadd a (f p)) (some s) = some σ ∧
        s ≤ σ ∧ σ ≤ s + (l.map bnd).sum := by
  intro l
  induction l with
  | nil => intro s _; exact ⟨s, rfl, le_refl s, by simp⟩
  | cons q t ih =>
    intro s hl
    obtain ⟨tq, hfq, htq0, htqb⟩ := hl q (List.Mem.head _)
    have step : oadd (some s) (f q) = some (s + tq) := by rw [hfq]; rfl
    show ∃ σ, t.foldl _ (oadd (some s) (f q)) = some σ ∧ _
    rw [step]
    obtain ⟨σ, hfold, h1, h2⟩ := ih (s + tq) (fun p hp => hl p (List.Mem.tail _ hp))
    refine ⟨σ, hfold, ?_, ?_⟩
    · have : 0 ≤ tq := htq0
      linarith
    · rw [List.map_cons, List.sum_cons]
      have hmono : (t.map bnd).sum + tq ≤ (t.map bnd).sum + bnd q := by linarith
      linarith

/-- The neighbor-pair sum of one SimRank++ update cell is numeric,
nonnegative, and at most the product of the two row sums, hence at most 1. -/
theorem ppTermSum_bound (T prevOpp : OMat) (oppKeys : List String) (ui vi : ℕ)
    (lu lv : List (String × ℚ)) (tvU tvV : String × ℚ → ℚ)
    (hU : ∀ p ∈ lu, omget T ui (idx oppKeys p.1) = some (tvU p) ∧ 0 ≤ tvU p)
    (hV : ∀ p ∈ lv, omget T vi (idx oppKeys p.1) = some (tvV p) ∧ 0 ≤ tvV p)
    (hUs : (lu.map tvU).sum ≤ 1) (hVs : (lv.map tvV).sum ≤ 1)
    (hprev : OMatIn01 prevOpp) :
    ∃ σ, ((lu.map Prod.fst).product (lv.map Prod.fst)).foldl
      (fun acc p => oadd acc (omul (omul (omget T ui (idx oppKeys p.1))
        (omget T vi (idx oppKeys p.2)))
        (omget prevOpp (idx oppKeys p.1) (idx oppKeys p.2))))
      (some 0) = some σ ∧ 0 ≤ σ ∧ σ ≤ 1 := by
  rw [product_map, List.foldl_map]
  have hterms : ∀ q ∈ lu.product lv,
      ∃ t, (omul (omul (omget T ui (idx oppKeys (Prod.map Prod.fst Prod.fst q).1))
        (omget T vi (idx oppKeys (Prod.map Prod.fst Prod.fst q).2)))
        (omget prevOpp (idx oppKeys (Prod.map Prod.fst Prod.fst q).1)
          (idx oppKeys (Prod.map Prod.fst Prod.fst q).2))) = some t ∧
        0 ≤ t ∧ t ≤ tvU q.1 * tvV q.2 := by
    intro q hq
    obtain ⟨p1, p2⟩ := q
    rw [List.pair_mem_product] at hq
    obtain ⟨hq1, hq2⟩ := hq
    obtain ⟨hU1, hU2⟩ := hU p1 hq1
    obtain ⟨hV1, hV2⟩ := hV p2 hq2
    obtain ⟨pv, hpv, hpv0, hpv1⟩ := omatIn01_read hprev (idx oppKeys p1.1) (idx oppKeys p2.1)
    refine ⟨tvU p1 * tvV p2 * pv, ?_, ?_, ?_⟩
    · show (omul (omul (omget T ui (idx oppKeys p1.1)) (omget T vi (idx oppKeys p2.1)))
        (omget prevOpp (idx oppKeys p1.1) (idx oppKeys p2.1))) = _
      rw [hU1, hV1, hpv]
      rfl
    · exact mul_nonneg (mul_nonneg hU2 hV2) hpv0
    · exact mul_le_of_le_one_right (mul_nonneg hU2 hV2) hpv1
  obtain ⟨σ, h1, h2, h3⟩ := oaddFold_bound
    (fun q => (omul (omul (omget T ui (idx oppKeys (Prod.map Prod.fst Prod.fst q).1))
      (omget T vi (idx oppKeys (Prod.map Prod.fst Prod.fst q).2)))
      (omget prevOpp (idx oppKeys (Prod.map Prod.fst Prod.fst q).1)
        (idx oppKeys (Prod.map Prod.fst Prod.fst q).2))))
    (fun q => tvU q.1 * tvV q.2) (lu.product lv) 0 hterms
  refine ⟨σ, h1, h2, ?_⟩
  rw [zero_add] at h3
  refine h3.trans ?_
  rw [sum_map_product]
  have hu0 : 0 ≤ (lu.map tvU).sum :=
    List.sum_nonneg (fun x hx => by
      obtain ⟨p, hp, rfl⟩ := List.mem_map.1 hx
      exact (hU p hp).2)
  have hv0 : 0 ≤ (lv.map tvV).sum :=
    List.sum_nonneg (fun x hx => by
      obtain ⟨p, hp, rfl⟩ := List.mem_map.1 hx
      exact (hV p hp).2)
  exact mul_le_one hUs hv0 hVs

/-- One SimRank++ update sweep keeps every entry numeric and in [0,1],
provided the transition matrix is row substochastic, the damping factor is
in [0,1], and both the previous opposite matrix and the current matrix
already qualify. -/
theorem ppUpdateSide_01 (keys : List String)
    (nbrsOf : String → List (String × ℚ)) (oppKeys : List String) (T : OMat)
    (r : ℚ) (prevOpp sim : OMat) (hr0 : 0 ≤ r) (hr1 : r ≤ 1)
    (hT : TransOK T keys oppKeys nbrsOf) (hprev : OMatIn01 prevOpp)
    (hsim : OMatIn01 sim) :
    OMatIn01 (ppUpdateSide keys nbrsOf oppKeys T r prevOpp sim) := by
  unfold ppUpdateSide
  refine foldl_preserve OMatIn01 _ _ _ hsim (fun m hm uv huv => ?_)
  obtain ⟨u, v⟩ := uv
  rw [List.pair_mem_product] at huv
  dsimp only
  by_cases heq : u = v
  · rw [if_pos heq]
    exact hm
  · rw [if_neg heq]
    by_cases hz : (nbrsOf u).length = 0 ∨ (nbrsOf v).length = 0
    · rw [if_pos hz]
      exact omatIn01_omset (omatIn01_omset hm EntryIn01.zero _ _) EntryIn01.zero _ _
    · rw [if_neg hz]
      obtain ⟨tvU, hU, hUs⟩ := hT u huv.1
      obtain ⟨tvV, hV, hVs⟩ := hT v huv.2
      obtain ⟨σ, hσeq, hσ0, hσ1⟩ := ppTermSum_bound T prevOpp oppKeys
        (idx keys u) (idx keys v) (nbrsOf u) (nbrsOf v) tvU tvV hU hV hUs hVs hprev
      rw [hσeq]
      have hval : EntryIn01 (omul (some r) (some σ)) :=
        ⟨r * σ, rfl, mul_nonneg hr0 hσ0, mul_le_one hr1 hσ0 hσ1⟩
      exact omatIn01_omset (omatIn01_omset hm hval _ _) hval _ _

/-- The iteration loop keeps all four state matrices in the unit interval. -/
theorem ppIter_in01 (stepL stepR : OMat → OMat → OMat)
    (hL : ∀ p s, OMatIn01 p → OMatIn01 s → OMatIn01 (stepL p s))
    (hR : ∀ p s, OMatIn01 p → OMatIn01 s → OMatIn01 (stepR p s)) (eps : ℚ) :
    ∀ (fuel : ℕ) (st : OMat × OMat × OMat × OMat),
      OMatIn01 st.1 → OMatIn01 st.2.1 → OMatIn01 st.2.2.1 → OMatIn01 st.2.2.2 →
      OMatIn01 (ppIter stepL stepR eps fuel st).1 ∧
      OMatIn01 (ppIter stepL stepR eps fuel st).2 := by
  intro fuel
  induction fuel with
  | zero => intro st _ h2 _ h4; exact ⟨h2, h4⟩
  | succ n ih =>
    intro st h1 h2 h3 h4
    obtain ⟨lp, ls, rp, rs⟩ := st
    simp only [ppIter]
    split
    · exact ⟨hL rp ls h3 h2, hR lp rs h1 h4⟩
    · exact ih (stepL rp ls, stepL rp ls, stepR lp rs, stepR lp rs)
        (hL rp ls h3 h2) (hL rp ls h3 h2) (hR lp rs h1 h4) (hR lp rs h1 h4)

/-- The final evidence multiplication keeps entries in the unit interval. -/
theorem evMul_in01 {S : OMat} {E : QMat} (hS : OMatIn01 S) (hE : QMatIn01 E)
    (n : ℕ) : OMatIn01 (evMul S E n) := by
  intro row hrow
  simp only [evMul, List.mem_map] at hrow
  obtain ⟨i, _, rfl⟩ := hrow
  intro e he
  simp only [List.mem_map] at he
  obtain ⟨j, _, rfl⟩ := he
  obtain ⟨x, hx, hx0, hx1⟩ := omatIn01_read hS i j
  obtain ⟨he0, he1⟩ := qmatIn01_read hE i j
  rw [hx]
  exact ⟨x * mget E i j, rfl, mul_nonneg hx0 he0, mul_le_one hx1 he0 he1⟩

/-- The spread vector entry of a member of the target key list. -/
theorem spreadVec_entry (expf : ℚ → ℚ) (tgtKeys : List String)
    (nbrsOfT : String → List (String × ℚ)) {m : String} (hm : m ∈ tgtKeys) :
    (spreadVec expf tgtKeys nbrsOfT).getD (idx tgtKeys m) none =
      (if ((nbrsOfT m).map Prod.snd).length = 0 then none
       else some (expf (-(listVar ((nbrsOfT m).map Prod.snd))))) := by
  unfold spreadVec
  have hlt : idx tgtKeys m < tgtKeys.length := idx_lt_length hm
  have hget : tgtKeys[idx tgtKeys m] = m := by
    have h := getD_idx hm ""
    rw [List.getD_eq_getElem?_getD, List.getElem?_eq_getElem hlt] at h
    exact h
  rw [List.getD_eq_getElem?_getD, List.getElem?_map, List.getElem?_eq_getElem hlt]
  simp only [Option.map_some', Option.getD_some]
  rw [hget]

theorem listVar_nonneg (l : List ℚ) : 0 ≤ listVar l := by
  unfold listVar
  refine div_nonneg ?_ (by positivity)
  refine List.sum_nonneg (fun x hx => ?_)
  obtain ⟨y, _, rfl⟩ := List.mem_map.1 hx
  positivity

/-- Row substochasticity of one direction of the transition probability
matrix, under well-formedness of the source side, positive weights, and a
bounded spread vector. -/
theorem transSide_ok (sp : List (Option ℚ)) (srcKeys tgtKeys : List String)
    (nbrsOf : String → List (String × ℚ))
    (hside : SideOK srcKeys tgtKeys nbrsOf)
    (hsp : ∀ m ∈ tgtKeys, ∃ e, sp.getD (idx tgtKeys m) none = some e ∧
      0 ≤ e ∧ e ≤ 1) :
    TransOK (transSide sp (normWeight srcKeys tgtKeys nbrsOf)
      srcKeys tgtKeys nbrsOf).1 srcKeys tgtKeys nbrsOf := by
  intro u hu
  obtain ⟨hnd, hnodes⟩ := hside
  obtain ⟨hnb, hne, hps⟩ := hnodes u hu
  have hsub : ∀ p ∈ nbrsOf u, p.1 ∈ tgtKeys := fun p hp => (hps p hp).1
  have htot : 0 < ((nbrsOf u).map Prod.snd).sum := by
    refine List.sum_pos _ (fun x hx => ?_) ?_
    · obtain ⟨p, hp, rfl⟩ := List.mem_map.1 hx
      exact (hps p hp).2
    · simp only [ne_eq, List.map_eq_nil]
      exact hne
  refine ⟨fun p => (sp.getD (idx tgtKeys p.1) none).getD 0 *
    (p.2 / ((nbrsOf u).map Prod.snd).sum), fun p hp => ?_, ?_⟩
  · obtain ⟨e, he, he0, he1⟩ := hsp p.1 (hsub p hp)
    have hentry := (transSide_entry sp (normWeight srcKeys tgtKeys nbrsOf)
      srcKeys tgtKeys nbrsOf hnd hu hnb hsub).1 p hp
    constructor
    · rw [hentry]
      unfold tpVal
      rw [normWeight_entry srcKeys tgtKeys nbrsOf hnd hu hnb hsub hp]
      unfold pydiv
      rw [if_neg (ne_of_gt htot)]
      simp only [he, Option.getD_some]
      rfl
    · show 0 ≤ (sp.getD (idx tgtKeys p.1) none).getD 0 *
        (p.2 / ((nbrsOf u).map Prod.snd).sum)
      rw [he, Option.getD_some]
      exact mul_nonneg he0 (div_nonneg (le_of_lt (hps p hp).2) (le_of_lt htot))
  · have hsum1 : ((nbrsOf u).map
        (fun p => p.2 / ((nbrsOf u).map Prod.snd).sum)).sum = 1 := by
      rw [sum_map_div_q]
      exact div_self (ne_of_gt htot)
    calc ((nbrsOf u).map (fun p => (sp.getD (idx tgtKeys p.1) none).getD 0 *
          (p.2 / ((nbrsOf u).map Prod.snd).sum))).sum
        ≤ ((nbrsOf u).map (fun p => p.2 / ((nbrsOf u).map Prod.snd).sum)).sum := by
          refine List.sum_le_sum (fun p hp => ?_)
          obtain ⟨e, he, he0, he1⟩ := hsp p.1 (hsub p hp)
          show (sp.getD (idx tgtKeys p.1) none).getD 0 *
            (p.2 / ((nbrsOf u).map Prod.snd).sum) ≤
            p.2 / ((nbrsOf u).map Prod.snd).sum
          rw [he, Option.getD_some]
          have hwd : 0 ≤ p.2 / ((nbrsOf u).map Prod.snd).sum :=
            div_nonneg (le_of_lt (hps p hp).2) (le_of_lt htot)
          exact mul_le_of_le_one_left hwd he1
      _ = 1 := hsum1

/-- Row substochasticity of the left transition matrix of the solver. -/
theorem transL_ok (G : BipartiteGraph) (expf : ℚ → ℚ) (hG : GraphOK G)
    (hexp : ∀ q : ℚ, 0 ≤ q → 0 ≤ expf (-q) ∧ expf (-q) ≤ 1) :
    TransOK (transL expf G).1 G.get_lns G.get_rns (lnbrs G) := by
  unfold transL
  refine transSide_ok _ _ _ _ hG.1 (fun m hm => ?_)
  rw [spreadVec_entry expf G.get_rns (rnbrs G) hm]
  obtain ⟨_, hneR, _⟩ := hG.2.2 m hm
  rw [if_neg (by simpa using hneR)]
  exact ⟨expf (-(listVar ((rnbrs G m).map Prod.snd))), rfl,
    (hexp _ (listVar_nonneg _)).1, (hexp _ (listVar_nonneg _)).2⟩

/-- Row substochasticity of the right transition matrix of the solver. -/
theorem transR_ok (G : BipartiteGraph) (expf : ℚ → ℚ) (hG : GraphOK G)
    (hexp : ∀ q : ℚ, 0 ≤ q → 0 ≤ expf (-q) ∧ expf (-q) ≤ 1) :
    TransOK (transR expf G).1 G.get_rns G.get_lns (rnbrs G) := by
  unfold transR
  refine transSide_ok _ _ _ _ hG.2 (fun m hm => ?_)
  rw [spreadVec_entry expf G.get_lns (lnbrs G) hm]
  obtain ⟨_, hneL, _⟩ := hG.1.2 m hm
  rw [if_neg (by simpa using hneL)]
  exact ⟨expf (-(listVar ((lnbrs G m).map Prod.snd))), rfl,
    (hexp _ (listVar_nonneg _)).1, (hexp _ (listVar_nonneg _)).2⟩

/-! ### Diagonal preservation in both solvers -/

/-- A symmetric pair of writes at distinct coordinates cannot touch a
diagonal cell. -/
theorem omget_write_pair_diag (M : OMat) {a b : ℕ} (hab : a ≠ b)
    (v w : Option ℚ) (k : ℕ) :
    omget (omset (omset M a b v) b a w) k k = omget M k k := by
  rw [omget_omset_ne _ _ (by omega), omget_omset_ne _ _ (by omega)]

theorem mget_write_pair_diag (M : QMat) {a b : ℕ} (hab : a ≠ b)
    (v w : ℚ) (k : ℕ) :
    mget (mset (mset M a b v) b a w) k k = mget M k k := by
  rw [mget_mset_ne _ _ (by omega), mget_mset_ne _ _ (by omega)]

/-- One update sweep of the SimRank++ solver never writes a diagonal cell. -/
theorem ppUpdateSide_diag (keys : List String) (nbrsOf : String → List (String × ℚ))
    (oppKeys : List String) (T : OMat) (r : ℚ) (prevOpp : OMat) (sim : OMat)
    (k : ℕ) :
    omget (ppUpdateSide keys nbrsOf oppKeys T r prevOpp sim) k k = omget sim k k := by
  unfold ppUpdateSide
  refine foldl_preserve (fun m => omget m k k = omget sim k k) _ _ _ rfl
    (fun m hm uv huv => ?_)
  obtain ⟨u, v⟩ := uv
  rw [List.pair_mem_product] at huv
  by_cases heq : u = v
  · simp only [heq, if_pos rfl]
    exact hm
  · rw [if_neg heq]
    have hne : idx keys u ≠ idx keys v :=
      fun hc => heq (idx_inj huv.1 huv.2 hc)
    by_cases hz : (nbrsOf u).length = 0 ∨ (nbrsOf v).length = 0
    · simp only [if_pos hz]
      rw [omget_write_pair_diag _ hne]
      exact hm
    · simp only [if_neg hz]
      rw [omget_write_pair_diag _ hne]
      exact hm

/-- The iteration loop keeps whatever the diagonals of the current
similarity matrices are, provided both step functions do. -/
theorem ppIter_diag (stepL stepR : OMat → OMat → OMat)
    (hL : ∀ p s k, omget (stepL p s) k k = omget s k k)
    (hR : ∀ p s k, omget (stepR p s) k k = omget s k k)
    (eps : ℚ) :
    ∀ (fuel : ℕ) (st : OMat × OMat × OMat × OMat) (k : ℕ),
      omget (ppIter stepL stepR eps fuel st).1 k k = omget st.2.1 k k ∧
      omget (ppIter stepL stepR eps fuel st).2 k k = omget st.2.2.2 k k := by
  intro fuel
  induction fuel with
  | zero => intro st k; exact ⟨rfl, rfl⟩
  | succ n ih =>
    intro st k
    obtain ⟨lp, ls, rp, rs⟩ := st
    simp only [ppIter]
    split
    · exact ⟨hL rp ls k, hR lp rs k⟩
    · refine ⟨?_, ?_⟩
      · rw [(ih (stepL rp ls, stepL rp ls, stepR lp rs, stepR lp rs) k).1, hL]
      · rw [(ih (stepL rp ls, stepL rp ls, stepR lp rs, stepR lp rs) k).2, hR]

/-- The evidence computation never writes a diagonal cell either, so the
evidence diagonal is the identity diagonal. -/
theorem calcEvidence_diag (keys : List String) (nbrKeysOf : String → List String)
    (k : ℕ) :
    mget (calcEvidence keys nbrKeysOf) k k = mget (identityMat keys.length) k k := by
  unfold calcEvidence
  refine foldl_preserve
    (fun (st : QMat × List (List Bool)) => mget st.1 k k = mget (identityMat keys.length) k k)
    _ _ _ rfl (fun st hst uv huv => ?_)
  unfold evStep
  obtain ⟨E, C⟩ := st
  obtain ⟨u, v⟩ := uv
  rw [List.pair_mem_product] at huv
  by_cases heq : u = v
  · simpa [heq] using hst
  · rw [if_neg heq]
    have hne : idx keys u ≠ idx keys v :=
      fun hc => heq (idx_inj huv.1 huv.2 hc)
    split
    · exact hst
    · show mget (mset (mset E _ _ _) _ _ _) k k = _
      rw [mget_write_pair_diag _ hne]
      exact hst

/-! ### The basic solver always returns the identity matrices -/

theorem zip_self {α : Type} (l : List α) : l.zip l = l.map (fun x => (x, x)) := by
  induction l with
  | nil => rfl
  | cons a t ih => simp [List.zip_cons_cons, ih]

/-- Any matrix is allclose to itself for a nonnegative absolute tolerance. -/
theorem allclose_self (m : QMat) (eps : ℚ) (heps : 0 ≤ eps) :
    allclose m m eps = true := by
  unfold allclose
  rw [zip_self, List.all_eq_true]
  intro rp hrp
  obtain ⟨row, hrow, rfl⟩ := List.mem_map.1 hrp
  rw [zip_self, List.all_eq_true]
  intro p hp
  obtain ⟨x, hx, rfl⟩ := List.mem_map.1 hp
  refine decide_eq_true ?_
  rw [sub_self, abs_zero]
  positivity

/-- The basic solver's convergence check precedes the first update, and the
initial matrices equal their initial copies, so for any positive iteration
cap and nonnegative tolerance it returns the identity matrices unchanged. -/
theorem basic_returns_identity (G : BipartiteGraph) (r eps : ℚ) (heps : 0 ≤ eps)
    (fuel : ℕ) (hf : fuel ≠ 0) :
    simrank_bipartite G r fuel eps =
      some (identityMat G.get_lns_count, identityMat G.rns.length) := by
  unfold simrank_bipartite
  rw [if_neg hf]
  obtain ⟨n, rfl⟩ : ∃ n, fuel = n + 1 := ⟨fuel - 1, by omega⟩
  show some (if _ then _ else _) = _
  rw [allclose_self _ _ heps, allclose_self _ _ heps]
  simp

/-- Diagonal of the raw SimRank++ state after any number of loop passes. -/
theorem ppRaw_diag (G : BipartiteGraph) (tl tr : OMat) (r eps : ℚ) (fuel : ℕ) :
    (∀ i, omget (ppRaw G tl tr r fuel eps).1 i i = omget (oidentity G.get_lns_count) i i) ∧
    (∀ j, omget (ppRaw G tl tr r fuel eps).2 j j = omget (oidentity G.rns.length) j j) := by
  unfold ppRaw
  constructor
  · intro i
    exact (ppIter_diag _ _
      (fun p s k => ppUpdateSide_diag G.get_lns (lnbrs G) G.get_rns tl r p s k)
      (fun p s k => ppUpdateSide_diag G.get_rns (rnbrs G) G.get_lns tr r p s k)
      eps fuel _ i).1
  · intro j
    exact (ppIter_diag _ _
      (fun p s k => ppUpdateSide_diag G.get_lns (lnbrs G) G.get_rns tl r p s k)
      (fun p s k => ppUpdateSide_diag G.get_rns (rnbrs G) G.get_lns tr r p s k)
      eps fuel _ j).2

theorem spreadR_GB (expf : ℚ → ℚ) (h : expf 0 = 1) :
    spreadVec expf GB.get_rns (rnbrs GB) = [some 1] := by
  have h1 : listVar [(1:ℚ), 1] = 0 := by decide
  show [some (expf (-(listVar [1, 1])))] = [some 1]
  rw [h1]; norm_num [h]

theorem spreadL_GB (expf : ℚ → ℚ) (h : expf 0 = 1) :
    spreadVec expf GB.get_lns (lnbrs GB) = [some 1, some 1] := by
  have h1 : listVar [(1:ℚ)] = 0 := by decide
  show [some (expf (-(listVar [1]))), some (expf (-(listVar [1])))] = [some 1, some 1]
  rw [h1]; norm_num [h]

theorem transL_GB (expf : ℚ → ℚ) (h : expf 0 = 1) :
    (transL expf GB).1 = [[some 1], [some 1]] := by
  unfold transL; rw [spreadR_GB expf h]; decide

theorem transR_GB (expf : ℚ → ℚ) (h : expf 0 = 1) :
    (transR expf GB).1 = [[some (1/2), some (1/2)]] := by
  unfold transR; rw [spreadL_GB expf h]; decide

theorem spreadR_GA (expf : ℚ → ℚ) (h : expf 0 = 1) :
    spreadVec expf GA.get_rns (rnbrs GA) = [some 1, some 1] := by
  have h1 : listVar [(1:ℚ), 1] = 0 := by decide
  show [some (expf (-(listVar [1, 1]))), some (expf (-(listVar [1, 1])))] = [some 1, some 1]
  rw [h1]; norm_num [h]

theorem spreadL_GA (expf : ℚ → ℚ) (h : expf 0 = 1) :
    spreadVec expf GA.get_lns (lnbrs GA) = [some 1, some 1] := by
  have h1 : listVar [(1:ℚ), 1] = 0 := by decide
  show [some (expf (-(listVar [1, 1]))), some (expf (-(listVar [1, 1])))] = [some 1, some 1]
  rw [h1]; norm_num [h]

theorem transL_GA (expf : ℚ → ℚ) (h : expf 0 = 1) :
    (transL expf GA).1 = [[some (1/2), some (1/2)], [some (1/2), some (1/2)]] := by
  unfold transL; rw [spreadR_GA expf h]; decide

theorem transR_GA (expf : ℚ → ℚ) (h : expf 0 = 1) :
    (transR expf GA).1 = [[some (1/2), some (1/2)], [some (1/2), some (1/2)]] := by
  unfold transR; rw [spreadL_GA expf h]; decide

/-- On the scenario B graph the raw loop reaches its fixed point after the
second pass: the off-diagonal raw left similarity is exactly the damping
factor, for any damping factor and any iteration cap of at least 2. -/
theorem ppRaw_GB (r : ℚ) (fuel : ℕ) :
    ppRaw GB [[some 1], [some 1]] [[some (1/2), some (1/2)]] r (fuel + 2) (1/10000) =
    ([[some 1, some (r * (0 + 1 * 1 * 1))], [some (r * (0 + 1 * 1 * 1)), some 1]],
     [[some 1]]) := by
  set X : ℚ := r * (0 + 1 * 1 * 1) with hX
  show (if (allcloseO [[some 1, some X], [some X, some 1]]
         (oidentity 2) (1/10000) && true) = true
    then ([[some 1, some X], [some X, some 1]], [[some 1]])
    else ppIter _ _ (1/10000) (fuel + 1)
      ([[some 1, some X], [some X, some 1]],
       [[some 1, some X], [some X, some 1]],
       [[some 1]], [[some 1]])) =
    ([[some 1, some X], [some X, some 1]], [[some 1]])
  have hstep2 : ppIter
      (fun prevOpp sim => ppUpdateSide GB.get_lns (lnbrs GB) GB.get_rns [[some 1], [some 1]] r prevOpp sim)
      (fun prevOpp sim => ppUpdateSide GB.get_rns (rnbrs GB) GB.get_lns [[some (1/2), some (1/2)]] r prevOpp sim)
      (1/10000) (fuel + 1)
      ([[some 1, some X], [some X, some 1]],
       [[some 1, some X], [some X, some 1]],
       [[some 1]], [[some 1]]) =
      ([[some 1, some X], [some X, some 1]], [[some 1]]) := by
    show (if (allcloseO [[some 1, some X], [some X, some 1]]
           [[some 1, some X], [some X, some 1]] (1/10000) && true) = true
      then ([[some 1, some X], [some X, some 1]], [[some 1]])
      else _) = ([[some 1, some X], [some X, some 1]], [[some 1]])
    have hc : allcloseO [[some 1, some X], [some X, some 1]]
        [[some 1, some X], [some X, some 1]] (1/10000) = true := by
      simp only [allcloseO, List.zip, List.zipWith, List.all_cons, List.all_nil,
        decide_eq_true_eq, Bool.and_eq_true]
      repeat' apply And.intro
      all_goals first
        | trivial
        | (rw [sub_self, abs_zero]; positivity)
    rw [hc]
    simp
  rw [hstep2]
  split <;> rfl

/-- The full scenario B SimRank++ run, for an arbitrary damping factor. -/
theorem ppGB (expf : ℚ → ℚ) (h : expf 0 = 1) (r : ℚ) :
    simrank_double_plus_bipartite expf GB r 100 (1/10000) =
    some ([[some 1, some (r * (1/2))], [some (r * (1/2)), some 1]], [[some 1]]) := by
  unfold simrank_double_plus_bipartite
  rw [transL_GB expf h, transR_GB expf h]
  have h100 : (100 : ℕ) ≠ 0 := by norm_num
  simp only [ppMain, if_neg h100]
  rw [show (100 : ℕ) = 98 + 2 from rfl]
  rw [ppRaw_GB r 98]
  show some ([[some (1 * 1), some (r * (0 + 1 * 1 * 1) * (1/2))],
              [some (r * (0 + 1 * 1 * 1) * (1/2)), some (1 * 1)]],
             [[some (1 * 1)]]) = _
  norm_num

/-- The full scenario A SimRank++ run at the default parameters. -/
theorem ppGA (expf : ℚ → ℚ) (h : expf 0 = 1) :
    simrank_double_plus_bipartite expf GA (4/5) 100 (1/10000) =
    some ([[some 1, some (9764601/19531250)], [some (9764601/19531250), some 1]],
          [[some 1, some (9764601/19531250)], [some (9764601/19531250), some 1]]) := by
  unfold simrank_double_plus_bipartite
  rw [transL_GA expf h, transR_GA expf h]
  decide

/-! ### Claim theorems -/

/-- C1: on the scenario B graph with default parameters, the basic solver
breaks out of the loop at the very first convergence check, because both
similarity matrices still equal their initial copies, and returns the
identity matrices unchanged: the similarity of pc and camera is 0, not a
value strictly between 0 and 1, and no update pass ever runs.  This is the
code bug the claim exposes. -/
theorem C1_basic_solver_scenarioB_identity :
    simrank_bipartite GB (4/5) 100 (1/10000) = some (identityMat 2, identityMat 1) ∧
    mget (identityMat 2) (idx GB.get_lns "pc") (idx GB.get_lns "camera") = 0 := by
  decide

/-- C3 counterexample: on the scenario A graph the basic solver returns the
identity matrices (the pre-update convergence break), so the similarity of
camera and digital_camera it returns is 0, refuting the claimed value 1.0
for both solvers. -/
theorem C3_counterexample_basic_scenarioA :
    simrank_bipartite GA (4/5) 100 (1/10000) = some (identityMat 2, identityMat 2) ∧
    mget (identityMat 2) (idx GA.get_lns "camera") (idx GA.get_lns "digital_camera") = 0 ∧
    ((0 : ℚ) ≠ 1) := by
  decide

/-- C3 amended: on the scenario A graph with default parameters the basic
solver returns similarity 0 for (camera, digital_camera) because it stops
before the first update, and the SimRank++ solver returns
9764601/19531250, which is 0.75 (the evidence for a shared-neighbor
intersection of size 2) times the raw similarity at the stopping iteration
and is strictly below 1; neither solver returns 1.0. -/
theorem C3_amended_scenarioA_values (expf : ℚ → ℚ) (h : expf 0 = 1) :
    simrank_bipartite GA (4/5) 100 (1/10000) = some (identityMat 2, identityMat 2) ∧
    mget (identityMat 2) (idx GA.get_lns "camera") (idx GA.get_lns "digital_camera") = 0 ∧
    simrank_double_plus_bipartite expf GA (4/5) 100 (1/10000) =
      some ([[some 1, some (9764601/19531250)], [some (9764601/19531250), some 1]],
            [[some 1, some (9764601/19531250)], [some (9764601/19531250), some 1]]) ∧
    ((9764601/19531250 : ℚ) < 1) := by
  refine ⟨by decide, by decide, ppGA expf h, by norm_num⟩

/-- C3 amended, witness at a concrete exponential function. -/
theorem C3_amended_scenarioA_values_witness :
    simrank_bipartite GA (4/5) 100 (1/10000) = some (identityMat 2, identityMat 2) ∧
    mget (identityMat 2) (idx GA.get_lns "camera") (idx GA.get_lns "digital_camera") = 0 ∧
    simrank_double_plus_bipartite (fun _ => 1) GA (4/5) 100 (1/10000) =
      some ([[some 1, some (9764601/19531250)], [some (9764601/19531250), some 1]],
            [[some 1, some (9764601/19531250)], [some (9764601/19531250), some 1]]) ∧
    ((9764601/19531250 : ℚ) < 1) :=
  C3_amended_scenarioA_values (fun _ => 1) rfl

/-- C4: on the scenario B graph both left nodes have transition probability
1 toward hp.com, the raw left similarity of (pc, camera) converges to
exactly the damping factor r, the returned evidence-weighted value is
r times 1/2 (intersection size 1 gives evidence 0.5), and at the default
damping 4/5 the returned value is 2/5 = 0.4. -/
theorem C4_pp_scenarioB_damping_times_half (expf : ℚ → ℚ) (h : expf 0 = 1) (r : ℚ) :
    omget (transL expf GB).1 (idx GB.get_lns "pc") (idx GB.get_rns "hp.com") = some 1 ∧
    omget (transL expf GB).1 (idx GB.get_lns "camera") (idx GB.get_rns "hp.com") = some 1 ∧
    (ppRaw GB (transL expf GB).1 (transR expf GB).1 r 100 (1/10000)).1 =
      [[some 1, some r], [some r, some 1]] ∧
    simrank_double_plus_bipartite expf GB r 100 (1/10000) =
      some ([[some 1, some (r * (1/2))], [some (r * (1/2)), some 1]], [[some 1]]) ∧
    (4/5 * (1/2) : ℚ) = 2/5 := by
  refine ⟨?_, ?_, ?_, ppGB expf h r, by norm_num⟩
  · rw [transL_GB expf h]; decide
  · rw [transL_GB expf h]; decide
  · rw [transL_GB expf h, transR_GB expf h,
      show (100 : ℕ) = 98 + 2 from rfl, ppRaw_GB r 98]
    norm_num

/-- C4 witness at a concrete exponential function and the default damping. -/
theorem C4_pp_scenarioB_damping_times_half_witness :
    omget (transL (fun _ => 1) GB).1 (idx GB.get_lns "pc") (idx GB.get_rns "hp.com") = some 1 ∧
    omget (transL (fun _ => 1) GB).1 (idx GB.get_lns "camera") (idx GB.get_rns "hp.com") = some 1 ∧
    (ppRaw GB (transL (fun _ => 1) GB).1 (transR (fun _ => 1) GB).1 (4/5) 100 (1/10000)).1 =
      [[some 1, some (4/5)], [some (4/5), some 1]] ∧
    simrank_double_plus_bipartite (fun _ => 1) GB (4/5) 100 (1/10000) =
      some ([[some 1, some (4/5 * (1/2))], [some (4/5 * (1/2)), some 1]], [[some 1]]) ∧
    (4/5 * (1/2) : ℚ) = 2/5 :=
  C4_pp_scenarioB_damping_times_half (fun _ => 1) rfl (4/5)

/-- C6: evaluating get_weight at a left node that was never inserted does
raise the KeyError (the none result), but it is not mutation free: the
defaultdict read inserts the queried left node with an empty neighbor
dictionary, so the left node list, count and index map all change. -/
theorem C6_get_weight_failed_lookup_mutates :
    (G1.get_weight "b" "x").1 = none ∧
    G1.get_lns_count = 1 ∧
    (G1.get_weight "b" "x").2.get_lns_count = 2 ∧
    G1.get_lns = ["a"] ∧
    (G1.get_weight "b" "x").2.get_lns = ["a", "b"] ∧
    (G1.get_weight "b" "x").2.get_lns_index = [("a", 0), ("b", 1)] := by
  decide

/-- C10: each solver reports failure (the NameError on the unbound loop
variable at the final print) exactly when max_iterations is 0; for any
positive cap a result pair is returned. -/
theorem C10_max_iter_zero_raises (G : BipartiteGraph) (r eps : ℚ)
    (expf : ℚ → ℚ) (max_iter : ℕ) :
    (simrank_bipartite G r max_iter eps = none ↔ max_iter = 0) ∧
    (simrank_double_plus_bipartite expf G r max_iter eps = none ↔ max_iter = 0) := by
  constructor
  · unfold simrank_bipartite
    split <;> simp_all
  · unfold simrank_double_plus_bipartite ppMain
    split <;> simp_all

/-- C2 counterexample: inserting the single edge (a, x) with weight 0 makes
the total incident weight of the left node a zero; the normalized weight the
solver computes for (a, x) is then the float quotient 0/0, a NaN, not the
claimed numeric 0. -/
theorem C2_counterexample_zero_weight_nan :
    omget (normWeight G0.get_lns G0.get_rns (lnbrs G0)) 0 0 = none ∧
    omget (normWeight G0.get_lns G0.get_rns (lnbrs G0)) 0 0 ≠ some 0 := by
  decide

/-- Case analysis of the evidence value against the closed form 1 - 2^(-k). -/
theorem evidenceVal_cases (uns vns : List String) :
    (uns.length = 0 ∨ vns.length = 0 → evidenceVal uns vns = 0) ∧
    (uns.length ≠ 0 → vns.length ≠ 0 → interCount uns vns ≤ 5 →
      evidenceVal uns vns = 1 - (1/2 : ℚ) ^ interCount uns vns) ∧
    (uns.length ≠ 0 → vns.length ≠ 0 → 6 ≤ interCount uns vns →
      interCount uns vns ≤ 10 →
      evidenceVal uns vns = calculated_evidence.getD (interCount uns vns) 0 ∧
      evidenceVal uns vns ≠ 1 - (1/2 : ℚ) ^ interCount uns vns) ∧
    (uns.length ≠ 0 → vns.length ≠ 0 → 10 < interCount uns vns →
      evidenceVal uns vns = 1) := by
  refine ⟨?_, ?_, ?_, ?_⟩
  · intro h
    unfold evidenceVal
    rw [if_pos h]
  · intro h1 h2 hk
    unfold evidenceVal
    rw [if_neg (by tauto), if_pos (by omega)]
    set k := interCount uns vns with hk'
    interval_cases k <;> decide
  · intro h1 h2 hk1 hk2
    unfold evidenceVal
    rw [if_neg (by tauto), if_pos (by omega)]
    set k := interCount uns vns with hk'
    constructor
    · rfl
    · interval_cases k <;> decide
  · intro h1 h2 hk
    unfold evidenceVal
    rw [if_neg (by tauto), if_neg (by omega)]

/-- C7 counterexample: two left nodes sharing exactly six right neighbors.
The evidence entry is the hardcoded table value 0.98438, which is not
1 - 2^(-6) = 0.984375: the table rounds the closed form to five decimals
from intersection size 6 onward. -/
theorem C7_counterexample_k6_rounding :
    interCount ((lnbrs G6 "u").map Prod.fst) ((lnbrs G6 "v").map Prod.fst) = 6 ∧
    mget (calcEvidence G6.get_lns (fun n => (lnbrs G6 n).map Prod.fst))
      (idx G6.get_lns "u") (idx G6.get_lns "v") = 49219/50000 ∧
    ((49219/50000 : ℚ) ≠ 1 - (1/2 : ℚ) ^ 6) := by
  decide

/-- C7 amended: in the SimRank++ solver, for every graph whose per-node
neighbor key lists are duplicate free, both evidence matrices hold, for
every distinct pair of member nodes, the value evidenceVal of their
neighbor key lists; that value is 0 when either neighbor list is empty,
equals 1 - 2^(-k) for intersection sizes k up to 5, equals the hardcoded
five-decimal table entry, different from 1 - 2^(-k), for k from 6 to 10,
and is exactly 1 for k above 10; the diagonals are fixed at 1. -/
theorem C7_amended_evidence_characterization (G : BipartiteGraph)
    (hl : ∀ n ∈ G.get_lns, ((lnbrs G n).map Prod.fst).Nodup)
    (hr : ∀ n ∈ G.get_rns, ((rnbrs G n).map Prod.fst).Nodup) :
    (∀ u ∈ G.get_lns, ∀ v ∈ G.get_lns, u ≠ v →
      mget (calcEvidence G.get_lns (fun n => (lnbrs G n).map Prod.fst))
          (idx G.get_lns u) (idx G.get_lns v) =
        evidenceVal ((lnbrs G u).map Prod.fst) ((lnbrs G v).map Prod.fst)) ∧
    (∀ u ∈ G.get_rns, ∀ v ∈ G.get_rns, u ≠ v →
      mget (calcEvidence G.get_rns (fun n => (rnbrs G n).map Prod.fst))
          (idx G.get_rns u) (idx G.get_rns v) =
        evidenceVal ((rnbrs G u).map Prod.fst) ((rnbrs G v).map Prod.fst)) ∧
    (∀ w ∈ G.get_lns,
      mget (calcEvidence G.get_lns (fun n => (lnbrs G n).map Prod.fst))
        (idx G.get_lns w) (idx G.get_lns w) = 1) ∧
    (∀ w ∈ G.get_rns,
      mget (calcEvidence G.get_rns (fun n => (rnbrs G n).map Prod.fst))
        (idx G.get_rns w) (idx G.get_rns w) = 1) ∧
    (∀ uns vns : List String,
      (uns.length = 0 ∨ vns.length = 0 → evidenceVal uns vns = 0) ∧
      (uns.length ≠ 0 → vns.length ≠ 0 → interCount uns vns ≤ 5 →
        evidenceVal uns vns = 1 - (1/2 : ℚ) ^ interCount uns vns) ∧
      (uns.length ≠ 0 → vns.length ≠ 0 → 6 ≤ interCount uns vns →
        interCount uns vns ≤ 10 →
        evidenceVal uns vns = calculated_evidence.getD (interCount uns vns) 0 ∧
        evidenceVal uns vns ≠ 1 - (1/2 : ℚ) ^ interCount uns vns) ∧
      (uns.length ≠ 0 → vns.length ≠ 0 → 10 < interCount uns vns →
        evidenceVal uns vns = 1)) := by
  refine ⟨?_, ?_, ?_, ?_, fun uns vns => evidenceVal_cases uns vns⟩
  · intro u hu v hv hne
    exact calcEvidence_entry G.get_lns _ hl hu hv hne
  · intro u hu v hv hne
    exact calcEvidence_entry G.get_rns _ hr hu hv hne
  · intro w hw
    have hlt : idx G.get_lns w < G.get_lns.length := idx_lt_length hw
    rw [calcEvidence_diag, mget_identityMat hlt hlt, if_pos rfl]
  · intro w hw
    have hlt : idx G.get_rns w < G.get_rns.length := idx_lt_length hw
    rw [calcEvidence_diag, mget_identityMat hlt hlt, if_pos rfl]

/-- C7 amended witness: the six-shared-neighbor graph. -/
theorem C7_amended_evidence_characterization_witness :
    (∀ u ∈ G6.get_lns, ∀ v ∈ G6.get_lns, u ≠ v →
      mget (calcEvidence G6.get_lns (fun n => (lnbrs G6 n).map Prod.fst))
          (idx G6.get_lns u) (idx G6.get_lns v) =
        evidenceVal ((lnbrs G6 u).map Prod.fst) ((lnbrs G6 v).map Prod.fst)) ∧
    (∀ u ∈ G6.get_rns, ∀ v ∈ G6.get_rns, u ≠ v →
      mget (calcEvidence G6.get_rns (fun n => (rnbrs G6 n).map Prod.fst))
          (idx G6.get_rns u) (idx G6.get_rns v) =
        evidenceVal ((rnbrs G6 u).map Prod.fst) ((rnbrs G6 v).map Prod.fst)) ∧
    (∀ w ∈ G6.get_lns,
      mget (calcEvidence G6.get_lns (fun n => (lnbrs G6 n).map Prod.fst))
        (idx G6.get_lns w) (idx G6.get_lns w) = 1) ∧
    (∀ w ∈ G6.get_rns,
      mget (calcEvidence G6.get_rns (fun n => (rnbrs G6 n).map Prod.fst))
        (idx G6.get_rns w) (idx G6.get_rns w) = 1) ∧
    (∀ uns vns : List String,
      (uns.length = 0 ∨ vns.length = 0 → evidenceVal uns vns = 0) ∧
      (uns.length ≠ 0 → vns.length ≠ 0 → interCount uns vns ≤ 5 →
        evidenceVal uns vns = 1 - (1/2 : ℚ) ^ interCount uns vns) ∧
      (uns.length ≠ 0 → vns.length ≠ 0 → 6 ≤ interCount uns vns →
        interCount uns vns ≤ 10 →
        evidenceVal uns vns = calculated_evidence.getD (interCount uns vns) 0 ∧
        evidenceVal uns vns ≠ 1 - (1/2 : ℚ) ^ interCount uns vns) ∧
      (uns.length ≠ 0 → vns.length ≠ 0 → 10 < interCount uns vns →
        evidenceVal uns vns = 1)) :=
  C7_amended_evidence_characterization G6 (by decide) (by decide)

/-- C2 amended: for a member node with at least one neighbor whose incident
weights sum to zero, the SimRank++ precomputation divides by that zero
total, so the normalized weight toward every neighbor, the transition
probability toward every neighbor, and the self-transition probability of
the node are all non-numeric (NaN), not the numeric 0, 0 and 1 the claim
states; no exception is raised (numpy only warns), the NaN simply
propagates.  Stated for one direction of the computation, which the solver
instantiates for both sides. -/
theorem C2_amended_zero_total_weight_nan
    (srcKeys tgtKeys : List String) (nbrsOf : String → List (String × ℚ))
    (sp : List (Option ℚ)) (hnd : srcKeys.Nodup) {n : String} (hn : n ∈ srcKeys)
    (hnb : ((nbrsOf n).map Prod.fst).Nodup)
    (hsub : ∀ p ∈ nbrsOf n, p.1 ∈ tgtKeys)
    (hne : nbrsOf n ≠ [])
    (htot : ((nbrsOf n).map Prod.snd).sum = 0) :
    (∀ p ∈ nbrsOf n,
      omget (normWeight srcKeys tgtKeys nbrsOf)
        (idx srcKeys n) (idx tgtKeys p.1) = none) ∧
    (∀ p ∈ nbrsOf n,
      omget (transSide sp (normWeight srcKeys tgtKeys nbrsOf) srcKeys tgtKeys nbrsOf).1
        (idx srcKeys n) (idx tgtKeys p.1) = none) ∧
    (transSide sp (normWeight srcKeys tgtKeys nbrsOf) srcKeys tgtKeys nbrsOf).2.getD
      (idx srcKeys n) (some 0) = none := by
  have h1 : ∀ p ∈ nbrsOf n,
      omget (normWeight srcKeys tgtKeys nbrsOf)
        (idx srcKeys n) (idx tgtKeys p.1) = none := by
    intro p hp
    rw [normWeight_entry srcKeys tgtKeys nbrsOf hnd hn hnb hsub hp, htot]
    unfold pydiv
    rw [if_pos rfl]
  have htv : ∀ p ∈ nbrsOf n,
      tpVal sp (normWeight srcKeys tgtKeys nbrsOf) tgtKeys (idx srcKeys n) p = none := by
    intro p hp
    unfold tpVal
    rw [h1 p hp, omul_none_right]
  have hts := transSide_entry sp (normWeight srcKeys tgtKeys nbrsOf)
    srcKeys tgtKeys nbrsOf hnd hn hnb hsub
  refine ⟨h1, fun p hp => ?_, ?_⟩
  · rw [hts.1 p hp, htv p hp]
  · rw [hts.2]
    obtain ⟨p, hp⟩ := List.exists_mem_of_ne_nil _ hne
    rw [oaddFold_none _ _ _ ⟨p, hp, htv p hp⟩]
    rfl

/-- C2 amended witness: the single zero-weight edge graph, left side, with
the solver's own spread vector at a concrete exponential function. -/
theorem C2_amended_zero_total_weight_nan_witness :
    (∀ p ∈ lnbrs G0 "a",
      omget (normWeight G0.get_lns G0.get_rns (lnbrs G0))
        (idx G0.get_lns "a") (idx G0.get_rns p.1) = none) ∧
    (∀ p ∈ lnbrs G0 "a",
      omget (transSide (spreadVec (fun _ => 1) G0.get_rns (rnbrs G0))
          (normWeight G0.get_lns G0.get_rns (lnbrs G0))
          G0.get_lns G0.get_rns (lnbrs G0)).1
        (idx G0.get_lns "a") (idx G0.get_rns p.1) = none) ∧
    (transSide (spreadVec (fun _ => 1) G0.get_rns (rnbrs G0))
        (normWeight G0.get_lns G0.get_rns (lnbrs G0))
        G0.get_lns G0.get_rns (lnbrs G0)).2.getD
      (idx G0.get_lns "a") (some 0) = none :=
  C2_amended_zero_total_weight_nan G0.get_lns G0.get_rns (lnbrs G0)
    (spreadVec (fun _ => 1) G0.get_rns (rnbrs G0)) (by decide) (by decide)
    (by decide) (by decide) (by decide) (by decide)

/-- C9: for every well-formed graph with positive edge weights, a damping
factor in [0,1], a nonnegative tolerance, an exponential bounded in (0,1]
on nonpositive arguments, and any iteration cap, every entry of the two
matrices returned by either solver is numeric and lies in [0,1]: the basic
solver returns identity matrices, and in the SimRank++ solver each update
writes at most damping times the product of two substochastic row sums
weighted by previous entries in [0,1], and the evidence multiplication
multiplies by values in [0,1]. -/
theorem C9_entries_in_unit_interval (G : BipartiteGraph) (hG : GraphOK G)
    (expf : ℚ → ℚ) (hexp : ∀ q : ℚ, 0 ≤ q → 0 ≤ expf (-q) ∧ expf (-q) ≤ 1)
    (r : ℚ) (hr0 : 0 ≤ r) (hr1 : r ≤ 1) (eps : ℚ) (heps : 0 ≤ eps) (fuel : ℕ) :
    (∀ lm rm, simrank_bipartite G r fuel eps = some (lm, rm) →
      QMatIn01 lm ∧ QMatIn01 rm) ∧
    (∀ lm rm, simrank_double_plus_bipartite expf G r fuel eps = some (lm, rm) →
      OMatIn01 lm ∧ OMatIn01 rm) := by
  constructor
  · intro lm rm hres
    by_cases hf : fuel = 0
    · rw [hf] at hres
      simp [simrank_bipartite] at hres
    · rw [basic_returns_identity G r eps heps fuel hf] at hres
      obtain ⟨hL, hR⟩ := Prod.mk.inj (Option.some.inj hres)
      subst hL
      subst hR
      exact ⟨identityMat_in01 _, identityMat_in01 _⟩
  · intro lm rm hres
    unfold simrank_double_plus_bipartite ppMain at hres
    by_cases hf : fuel = 0
    · rw [if_pos hf] at hres
      exact absurd hres (by simp)
    · rw [if_neg hf] at hres
      injection hres with h1
      obtain ⟨hL, hR⟩ := Prod.mk.inj h1
      subst hL
      subst hR
      have htl := transL_ok G expf hG hexp
      have htr := transR_ok G expf hG hexp
      have hraw : OMatIn01 (ppRaw G (transL expf G).1 (transR expf G).1 r fuel eps).1 ∧
          OMatIn01 (ppRaw G (transL expf G).1 (transR expf G).1 r fuel eps).2 := by
        unfold ppRaw
        exact ppIter_in01 _ _
          (fun p s hp hs => ppUpdateSide_01 G.get_lns (lnbrs G) G.get_rns
            (transL expf G).1 r p s hr0 hr1 htl hp hs)
          (fun p s hp hs => ppUpdateSide_01 G.get_rns (rnbrs G) G.get_lns
            (transR expf G).1 r p s hr0 hr1 htr hp hs)
          eps fuel _ (oidentity_in01 _) (oidentity_in01 _)
          (oidentity_in01 _) (oidentity_in01 _)
      exact ⟨evMul_in01 hraw.1 (calcEvidence_in01 _ _) _,
        evMul_in01 hraw.2 (calcEvidence_in01 _ _) _⟩

/-- C9 witness: scenario B graph with defaults. -/
theorem C9_entries_in_unit_interval_witness :
    (∀ lm rm, simrank_bipartite GB (4/5) 100 (1/10000) = some (lm, rm) →
      QMatIn01 lm ∧ QMatIn01 rm) ∧
    (∀ lm rm, simrank_double_plus_bipartite (fun _ => 1) GB (4/5) 100 (1/10000) =
        some (lm, rm) → OMatIn01 lm ∧ OMatIn01 rm) :=
  C9_entries_in_unit_interval GB (by decide) (fun _ => 1)
    (fun q _ => ⟨zero_le_one, le_refl 1⟩) (4/5) (by norm_num) (by norm_num)
    (1/10000) (by norm_num) 100

/-- C8: for every graph, damping, nonnegative tolerance and positive
iteration cap, whatever matrices either solver returns have every diagonal
entry exactly 1: the basic solver returns the identity matrices, and in the
SimRank++ solver no update pass or evidence write ever touches a diagonal
cell, while the final evidence multiplication multiplies the diagonal by
the evidence diagonal, which is also 1. -/
theorem C8_returned_diagonals_are_one (G : BipartiteGraph) (r eps : ℚ)
    (heps : 0 ≤ eps) (expf : ℚ → ℚ) (fuel : ℕ) (hf : fuel ≠ 0) :
    (∀ lm rm, simrank_bipartite G r fuel eps = some (lm, rm) →
      (∀ i, i < G.get_lns_count → mget lm i i = 1) ∧
      (∀ j, j < G.rns.length → mget rm j j = 1)) ∧
    (∀ lm rm, simrank_double_plus_bipartite expf G r fuel eps = some (lm, rm) →
      (∀ i, i < G.get_lns_count → omget lm i i = some 1) ∧
      (∀ j, j < G.rns.length → omget rm j j = some 1)) := by
  constructor
  · intro lm rm hres
    rw [basic_returns_identity G r eps heps fuel hf] at hres
    obtain ⟨rfl, rfl⟩ : identityMat G.get_lns_count = lm ∧ identityMat G.rns.length = rm := by
      constructor <;> · injection hres with h1; cases h1; rfl
    constructor
    · intro i hi
      rw [mget_identityMat hi hi, if_pos rfl]
    · intro j hj
      rw [mget_identityMat hj hj, if_pos rfl]
  · intro lm rm hres
    unfold simrank_double_plus_bipartite ppMain at hres
    rw [if_neg hf] at hres
    injection hres with h1
    obtain ⟨hL, hR⟩ := Prod.mk.inj h1
    subst hL
    subst hR
    constructor
    · intro i hi
      rw [omget_evMul hi hi, (ppRaw_diag G _ _ r eps fuel).1 i,
        omget_oidentity hi hi, if_pos rfl, calcEvidence_diag]
      have hlen : i < G.get_lns.length := by
        simpa [BipartiteGraph.get_lns] using hi
      rw [mget_identityMat hlen hlen, if_pos rfl]
      rfl
    · intro j hj
      have hlen : j < G.get_rns.length := by
        simpa [BipartiteGraph.get_rns] using hj
      rw [omget_evMul hj hj, (ppRaw_diag G _ _ r eps fuel).2 j,
        omget_oidentity hj hj, if_pos rfl, calcEvidence_diag]
      rw [mget_identityMat hlen hlen, if_pos rfl]
      rfl

/-- C8 witness: concrete instance on the scenario B graph. -/
theorem C8_returned_diagonals_are_one_witness :
    (∀ lm rm, simrank_bipartite GB (4/5) 100 (1/10000) = some (lm, rm) →
      (∀ i, i < GB.get_lns_count → mget lm i i = 1) ∧
      (∀ j, j < GB.rns.length → mget rm j j = 1)) ∧
    (∀ lm rm, simrank_double_plus_bipartite (fun _ => 1) GB (4/5) 100 (1/10000) = some (lm, rm) →
      (∀ i, i < GB.get_lns_count → omget lm i i = some 1) ∧
      (∀ j, j < GB.rns.length → omget rm j j = some 1)) :=
  C8_returned_diagonals_are_one GB (4/5) (1/10000) (by norm_num) (fun _ => 1) 100
    (by norm_num)

/-! ### split_subgraphs: dictionary and edge-level toolkit -/

lemma dictFind_mem {α : Type} {d : List (String × α)} {k : String} {v : α}
    (h : dictFind d k = some v) : (k, v) ∈ d := by
  induction d with
  | nil => simp [dictFind] at h
  | cons p rest ih =>
    obtain ⟨k', v'⟩ := p
    rw [dictFind] at h
    split at h
    · rename_i heq
      injection h with h2
      subst heq
      subst h2
      exact List.mem_cons_self _ _
    · exact List.mem_cons_of_mem _ (ih h)

lemma dictFind_mem_fst {α : Type} {d : List (String × α)} {k : String} {v : α}
    (h : dictFind d k = some v) : k ∈ d.map Prod.fst :=
  List.mem_map.mpr ⟨(k, v), dictFind_mem h, rfl⟩

lemma mem_fst_dictFind {α : Type} {d : List (String × α)} {k : String}
    (h : k ∈ d.map Prod.fst) : ∃ v, dictFind d k = some v := by
  induction d with
  | nil => simp at h
  | cons p rest ih =>
    obtain ⟨k', v'⟩ := p
    simp only [List.map_cons, List.mem_cons] at h
    by_cases hk : k' = k
    · exact ⟨v', by rw [dictFind, if_pos hk]⟩
    · rcases h with h1 | h2
      · exact absurd h1.symm hk
      · obtain ⟨v, hv⟩ := ih h2
        exact ⟨v, by rw [dictFind, if_neg hk]; exact hv⟩

lemma dictFind_dictSet_self {α : Type} (d : List (String × α)) (k : String)
    (v : α) : dictFind (dictSet d k v) k = some v := by
  induction d with
  | nil => simp [dictSet, dictFind]
  | cons p rest ih =>
    obtain ⟨k', v'⟩ := p
    rw [dictSet]
    by_cases hk : k' = k
    · rw [if_pos hk, dictFind, if_pos rfl]
    · rw [if_neg hk, dictFind, if_neg hk]
      exact ih

lemma dictFind_dictSet_ne {α : Type} (d : List (String × α)) {k k' : String}
    (v : α) (h : k' ≠ k) : dictFind (dictSet d k v) k' = dictFind d k' := by
  induction d with
  | nil => simp [dictSet, dictFind, Ne.symm h]
  | cons p rest ih =>
    obtain ⟨k'', v''⟩ := p
    rw [dictSet]
    by_cases hk : k'' = k
    · rw [if_pos hk, dictFind, if_neg (fun hh => h hh.symm), dictFind,
        if_neg (by rw [hk]; exact fun hh => h hh.symm)]
    · rw [if_neg hk, dictFind, dictFind]
      by_cases h2 : k'' = k'
      · rw [if_pos h2, if_pos h2]
      · rw [if_neg h2, if_neg h2]
        exact ih

lemma lnbrs_add_edge (g : BipartiteGraph) (s t : String) (w : ℚ) (l : String) :
    lnbrs (g.add_edge s t w) l =
      if l = s then dictSet (lnbrs g s) t w else lnbrs g l := by
  unfold lnbrs BipartiteGraph.add_edge dictSet2
  by_cases hl : l = s
  · rw [if_pos hl, hl, dictFind_dictSet_self]
    rfl
  · rw [if_neg hl, dictFind_dictSet_ne _ _ hl]

lemma hasEdgeW_add_edge (g : BipartiteGraph) (s t : String) (w₀ : ℚ)
    (l r : String) (w : ℚ) :
    hasEdgeW (g.add_edge s t w₀) l r w ↔
      ((l = s ∧ r = t ∧ w = w₀) ∨ (¬(l = s ∧ r = t) ∧ hasEdgeW g l r w)) := by
  unfold hasEdgeW
  rw [lnbrs_add_edge]
  by_cases hl : l = s
  · subst hl
    rw [if_pos rfl]
    by_cases hr : r = t
    · subst hr
      rw [dictFind_dictSet_self]
      constructor
      · intro h
        exact Or.inl ⟨rfl, rfl, (Option.some.inj h).symm⟩
      · rintro (⟨-, -, hw⟩ | ⟨hne, -⟩)
        · rw [hw]
        · exact absurd ⟨rfl, rfl⟩ hne
    · rw [dictFind_dictSet_ne _ _ hr]
      constructor
      · intro h
        exact Or.inr ⟨fun hc => hr hc.2, h⟩
      · rintro (⟨-, hrt, -⟩ | ⟨-, h⟩)
        · exact absurd hrt hr
        · exact h
  · rw [if_neg hl]
    constructor
    · intro h
      exact Or.inr ⟨fun hc => hl hc.1, h⟩
    · rintro (⟨hls, -, -⟩ | ⟨-, h⟩)
      · exact absurd hls hl
      · exact h

lemma hasEdgeW_empty (l r : String) (w : ℚ) :
    ¬ hasEdgeW BipartiteGraph.empty l r w := by
  unfold hasEdgeW lnbrs BipartiteGraph.empty
  simp [dictFind]

lemma mem_initWaiting {g : BipartiteGraph} {l r : String} :
    (l, r) ∈ initWaiting g ↔ r ∈ (lnbrs g l).map Prod.fst := by
  unfold initWaiting
  constructor
  · intro h
    obtain ⟨ln, hln, hmem⟩ := List.mem_bind.mp h
    obtain ⟨rn, hrn, heq⟩ := List.mem_map.mp hmem
    injection heq with e1 e2
    subst e1
    subst e2
    exact hrn
  · intro h
    have hfind : ∃ v, dictFind g.lns l = some v := by
      cases hf : dictFind g.lns l with
      | none =>
        rw [lnbrs, hf] at h
        simp at h
      | some v => exact ⟨v, rfl⟩
    obtain ⟨v, hv⟩ := hfind
    refine List.mem_bind.mpr ⟨l, ?_, ?_⟩
    · show l ∈ g.lns.map Prod.fst
      exact dictFind_mem_fst hv
    · exact List.mem_map.mpr ⟨r, h, rfl⟩

lemma mem_initWaiting_hasEdgeW {g : BipartiteGraph} {l r : String} :
    (l, r) ∈ initWaiting g ↔ ∃ w, hasEdgeW g l r w := by
  rw [mem_initWaiting]
  constructor
  · intro h
    exact mem_fst_dictFind h
  · rintro ⟨w, hw⟩
    exact dictFind_mem_fst hw

lemma weightOf_eq {g : BipartiteGraph} {l r : String} {w : ℚ}
    (h : hasEdgeW g l r w) : weightOf g l r = w := by
  unfold hasEdgeW lnbrs at h
  unfold weightOf BipartiteGraph.get_weight
  cases hf : dictFind g.lns l with
  | none =>
    rw [hf] at h
    simp [dictFind] at h
  | some nbrs =>
    rw [hf] at h
    simp only [Option.getD_some] at h
    simp [h]

lemma hasEdgeW_weightOf {g : BipartiteGraph} {l r : String}
    (h : (l, r) ∈ initWaiting g) : hasEdgeW g l r (weightOf g l r) := by
  obtain ⟨w, hw⟩ := mem_initWaiting_hasEdgeW.mp h
  rw [weightOf_eq hw]
  exact hw

lemma initWaiting_nodup {G : BipartiteGraph} (hG : SplitOK G) :
    (initWaiting G).Nodup := by
  obtain ⟨h1, h2, -⟩ := hG
  unfold initWaiting
  refine List.nodup_bind.mpr ⟨?_, ?_⟩
  · intro ln hln
    refine List.Nodup.map ?_ ?_
    · intro a b hab
      simpa using hab
    · obtain ⟨nbrs, hn⟩ := mem_fst_dictFind
        (show ln ∈ G.lns.map Prod.fst from hln)
      unfold lnbrs
      rw [hn]
      simp only [Option.getD_some]
      exact h2 (ln, nbrs) (dictFind_mem hn)
  · have hdisj : ∀ a b : String, a ≠ b →
        (((lnbrs G a).map Prod.fst).map (fun rn => (a, rn))).Disjoint
          (((lnbrs G b).map Prod.fst).map (fun rn => (b, rn))) := by
      intro a b hne x hxa hxb
      obtain ⟨ra, -, hra⟩ := List.mem_map.mp hxa
      obtain ⟨rb, -, hrb⟩ := List.mem_map.mp hxb
      rw [← hra] at hrb
      injection hrb with e1 e2
      exact hne e1.symm
    exact h1.imp (fun hab => hdisj _ _ hab)

lemma mirror_of_mem {G : BipartiteGraph} (hG : SplitOK G) {l r : String}
    (h : (l, r) ∈ initWaiting G) : l ∈ (rnbrs G r).map Prod.fst := by
  obtain ⟨-, -, h3⟩ := hG
  have hr := mem_initWaiting.mp h
  obtain ⟨nbrs, hn⟩ : ∃ v, dictFind G.lns l = some v := by
    cases hf : dictFind G.lns l with
    | none =>
      rw [lnbrs, hf] at hr
      simp at hr
    | some v => exact ⟨v, rfl⟩
  rw [lnbrs, hn] at hr
  simp only [Option.getD_some] at hr
  obtain ⟨q, hq, hq1⟩ := List.mem_map.mp hr
  have hm := h3 (l, nbrs) (dictFind_mem hn) q hq
  rw [hq1] at hm
  exact hm

lemma rnbrs_len_le (G : BipartiteGraph) (r : String) :
    ((rnbrs G r).map Prod.fst).length ≤ rightDegSum G := by
  rw [List.length_map]
  unfold rnbrs rightDegSum
  cases hf : dictFind G.rns r with
  | none => simp
  | some nbrs =>
    simp only [Option.getD_some]
    have hm : nbrs.length ∈ G.rns.map (fun p => p.2.length) :=
      List.mem_map.mpr ⟨(r, nbrs), dictFind_mem hf, rfl⟩
    exact List.single_le_sum (fun x _ => Nat.zero_le x) _ hm

lemma eadj_symm {e f : String × String} (h : eadj e f) : eadj f e := by
  unfold eadj at h ⊢
  rcases h with h | h
  · exact Or.inl h.symm
  · exact Or.inr h.symm

lemma connIn_symm {G : BipartiteGraph} {e f : String × String}
    (h : connIn G e f) : connIn G f e := by
  unfold connIn at h ⊢
  refine Relation.ReflTransGen.symmetric ?_ h
  intro a b hab
  exact ⟨hab.2.1, hab.1, eadj_symm hab.2.2⟩

/-! ### split_subgraphs: the neighbor sweep -/

lemma splitStep_pos (G : BipartiteGraph) (ln : String)
    (st : List (String × String) × List String × BipartiteGraph) (rn : String)
    (h : (ln, rn) ∈ st.1) :
    splitStep G ln st rn =
      (st.1.erase (ln, rn),
       st.2.1 ++ ((rnbrs G rn).map Prod.fst).filter
         (fun cl => decide ((cl, rn) ∈ st.1.erase (ln, rn))),
       st.2.2.add_edge ln rn (weightOf G ln rn)) := by
  unfold splitStep
  rw [if_pos h]

lemma splitStep_neg (G : BipartiteGraph) (ln : String)
    (st : List (String × String) × List String × BipartiteGraph) (rn : String)
    (h : (ln, rn) ∉ st.1) : splitStep G ln st rn = st := by
  unfold splitStep
  rw [if_neg h]

lemma splitStep_w_sub (G : BipartiteGraph) (ln : String)
    (st : List (String × String) × List String × BipartiteGraph) (rn : String) :
    ∀ x ∈ (splitStep G ln st rn).1, x ∈ st.1 := by
  by_cases h : (ln, rn) ∈ st.1
  · rw [splitStep_pos G ln st rn h]
    intro x hx
    exact List.erase_subset _ _ hx
  · rw [splitStep_neg G ln st rn h]
    intro x hx
    exact hx

lemma splitFold_w_sub (G : BipartiteGraph) (ln : String) :
    ∀ (l : List String) st, ∀ x ∈ (l.foldl (splitStep G ln) st).1, x ∈ st.1 := by
  intro l
  induction l with
  | nil =>
    intro st x hx
    exact hx
  | cons rn l ih =>
    intro st x hx
    rw [List.foldl_cons] at hx
    exact splitStep_w_sub G ln st rn x (ih _ x hx)

lemma splitStep_mu (G : BipartiteGraph) (ln : String)
    (st : List (String × String) × List String × BipartiteGraph) (rn : String) :
    (rightDegSum G + 2) * (splitStep G ln st rn).1.length +
      (splitStep G ln st rn).2.1.length ≤
    (rightDegSum G + 2) * st.1.length + st.2.1.length := by
  by_cases h : (ln, rn) ∈ st.1
  · rw [splitStep_pos G ln st rn h]
    dsimp only
    have hlen : (st.1.erase (ln, rn)).length = st.1.length - 1 :=
      List.length_erase_of_mem h
    have hpos : st.1.length ≠ 0 := by
      intro h0
      rw [List.eq_nil_of_length_eq_zero h0] at h
      simp at h
    obtain ⟨m, hm⟩ := Nat.exists_eq_succ_of_ne_zero hpos
    have hadds : (((rnbrs G rn).map Prod.fst).filter
        (fun cl => decide ((cl, rn) ∈ st.1.erase (ln, rn)))).length ≤
        rightDegSum G :=
      le_trans (List.length_filter_le _ _) (rnbrs_len_le G rn)
    rw [List.length_append, hlen, hm]
    simp only [Nat.succ_sub_one]
    rw [Nat.mul_succ]
    linarith [hadds]
  · rw [splitStep_neg G ln st rn h]

lemma splitFold_mu (G : BipartiteGraph) (ln : String) :
    ∀ (l : List String) st,
      (rightDegSum G + 2) * (l.foldl (splitStep G ln) st).1.length +
        (l.foldl (splitStep G ln) st).2.1.length ≤
      (rightDegSum G + 2) * st.1.length + st.2.1.length := by
  intro l
  induction l with
  | nil =>
    intro st
    exact le_refl _
  | cons rn l ih =>
    intro st
    rw [List.foldl_cons]
    exact le_trans (ih _) (splitStep_mu G ln st rn)

lemma splitStep_inv {G : BipartiteGraph} (hG : SplitOK G)
    {W₀ : List (String × String)} (hW₀ : ∀ x ∈ W₀, x ∈ initWaiting G)
    {seed : String × String} {ln rn : String} {rest : List String}
    {st : List (String × String) × List String × BipartiteGraph}
    (h : StepInv G W₀ seed ln (rn :: rest) st) :
    StepInv G W₀ seed ln rest (splitStep G ln st rn) := by
  by_cases hmem : (ln, rn) ∈ st.1
  case neg =>
    rw [splitStep_neg G ln st rn hmem]
    refine ⟨h.wsub, h.wnd, h.sat, ?_, h.part, h.conn, h.qconn, h.clos,
      h.seedq, h.lnconn⟩
    intro r hr
    rcases List.mem_cons.mp (h.lnrest r hr) with h1 | h2
    · exact absurd (h1 ▸ hr) hmem
    · exact h2
  case pos =>
    rw [splitStep_pos G ln st rn hmem]
    have hW'sub : ∀ x ∈ st.1.erase (ln, rn), x ∈ st.1 :=
      fun x hx => List.erase_subset _ _ hx
    have hnotW' : (ln, rn) ∉ st.1.erase (ln, rn) := h.wnd.not_mem_erase
    have hmemW' : ∀ x : String × String, x ≠ (ln, rn) →
        (x ∈ st.1.erase (ln, rn) ↔ x ∈ st.1) :=
      fun x hx => List.mem_erase_of_ne hx
    have hlnrnW₀ : (ln, rn) ∈ W₀ := h.wsub _ hmem
    have hlnrnE : (ln, rn) ∈ initWaiting G := hW₀ _ hlnrnW₀
    have hconn_lnrn : connIn G seed (ln, rn) := by
      obtain ⟨rs, hrW₀, hrconn⟩ := h.lnconn
      exact Relation.ReflTransGen.tail hrconn ⟨hW₀ _ hrW₀, hlnrnE, Or.inl rfl⟩
    refine ⟨?_, ?_, ?_, ?_, ?_, ?_, ?_, ?_, ?_, ?_⟩ <;> dsimp only
    · exact fun e he => h.wsub e (hW'sub e he)
    · exact h.wnd.erase _
    · intro l r r' hlr hlr' hlne
      have h2 : (l, r') ∈ st.1 := h.sat l r r' (hW'sub _ hlr) hlr' hlne
      refine (hmemW' (l, r') ?_).mpr h2
      intro he
      injection he with e1 e2
      exact hlne e1
    · intro r hr
      rcases List.mem_cons.mp (h.lnrest r (hW'sub _ hr)) with h2 | h2
      · subst h2
        exact absurd hr hnotW'
      · exact h2
    · intro l r w
      rw [hasEdgeW_add_edge]
      constructor
      · rintro (⟨e1, e2, e3⟩ | ⟨hne, he⟩)
        · subst e1
          subst e2
          exact ⟨hlnrnW₀, hnotW', e3⟩
        · obtain ⟨p1, p2, p3⟩ := (h.part l r w).mp he
          refine ⟨p1, ?_, p3⟩
          intro hW'
          exact p2 (hW'sub _ hW')
      · rintro ⟨hq1, hq2, hq3⟩
        by_cases hpair : (l, r) = (ln, rn)
        · injection hpair with e1 e2
          refine Or.inl ⟨e1, e2, ?_⟩
          rw [hq3, e1, e2]
        · right
          have hnot1 : (l, r) ∉ st.1 := by
            intro hin
            exact hq2 ((hmemW' (l, r) hpair).mpr hin)
          refine ⟨?_, (h.part l r w).mpr ⟨hq1, hnot1, hq3⟩⟩
          intro hc
          apply hpair
          rw [hc.1, hc.2]
    · intro l r w he
      rw [hasEdgeW_add_edge] at he
      rcases he with ⟨e1, e2, -⟩ | ⟨-, he⟩
      · rw [e1, e2]
        exact hconn_lnrn
      · exact h.conn l r w he
    · intro q hq
      rcases List.mem_append.mp hq with h1 | h1
      · exact h.qconn q h1
      · have h2 := List.mem_filter.mp h1
        have hqW' : (q, rn) ∈ st.1.erase (ln, rn) := of_decide_eq_true h2.2
        have hqW₀ : (q, rn) ∈ W₀ := h.wsub _ (hW'sub _ hqW')
        refine ⟨rn, hqW₀, ?_⟩
        exact Relation.ReflTransGen.tail hconn_lnrn
          ⟨hlnrnE, hW₀ _ hqW₀, Or.inr rfl⟩
    · intro l r hlrW₀ hlrout l' hl'W'
      by_cases hst : (l, r) ∈ st.1
      · have hpair : (l, r) = (ln, rn) := by
          by_contra hne
          exact hlrout ((hmemW' (l, r) hne).mpr hst)
        injection hpair with e1 e2
        subst e2
        refine Or.inl (List.mem_append.mpr (Or.inr ?_))
        refine List.mem_filter.mpr ⟨?_, ?_⟩
        · exact mirror_of_mem hG (hW₀ _ (h.wsub _ (hW'sub _ hl'W')))
        · exact decide_eq_true hl'W'
      · rcases h.clos l r hlrW₀ hst l' (hW'sub _ hl'W') with h1 | h1
        · exact Or.inl (List.mem_append.mpr (Or.inl h1))
        · exact Or.inr h1
    · intro hs
      rcases h.seedq (hW'sub _ hs) with h1 | h1
      · exact Or.inl (List.mem_append.mpr (Or.inl h1))
      · exact Or.inr h1
    · exact h.lnconn

lemma splitFold_inv {G : BipartiteGraph} (hG : SplitOK G)
    {W₀ : List (String × String)} (hW₀ : ∀ x ∈ W₀, x ∈ initWaiting G)
    {seed : String × String} {ln : String} :
    ∀ (l : List String) st, StepInv G W₀ seed ln l st →
      StepInv G W₀ seed ln [] (l.foldl (splitStep G ln) st) := by
  intro l
  induction l with
  | nil =>
    intro st h
    exact h
  | cons rn l ih =>
    intro st h
    rw [List.foldl_cons]
    exact ih _ (splitStep_inv hG hW₀ h)

lemma splitInner_main {G : BipartiteGraph} (hG : SplitOK G)
    {W₀ : List (String × String)} (hW₀ : ∀ x ∈ W₀, x ∈ initWaiting G)
    {seed : String × String} :
    ∀ (fuel : ℕ) W Q g, SplitInv G W₀ seed W Q g →
      (rightDegSum G + 2) * W.length + Q.length < fuel →
      SplitInv G W₀ seed (splitInner G fuel (W, Q, g)).1 []
        (splitInner G fuel (W, Q, g)).2 ∧
      (∀ x ∈ (splitInner G fuel (W, Q, g)).1, x ∈ W) := by
  intro fuel
  induction fuel with
  | zero =>
    intro W Q g hinv hμ
    exact absurd hμ (Nat.not_lt_zero _)
  | succ fuel ih =>
    intro W Q g hinv hμ
    cases Q with
    | nil => exact ⟨hinv, fun x hx => hx⟩
    | cons ln Qt =>
      have heq : splitInner G (fuel + 1) (W, ln :: Qt, g) =
          splitInner G fuel (((lnbrs G ln).map Prod.fst).foldl
            (splitStep G ln) (W, Qt, g)) := rfl
      rw [heq]
      have hstep0 : StepInv G W₀ seed ln ((lnbrs G ln).map Prod.fst)
          (W, Qt, g) := by
        refine ⟨hinv.wsub, hinv.wnd, ?_, ?_, hinv.part, hinv.conn, ?_, ?_,
          ?_, ?_⟩
        · exact fun l r r' h1 h2 _ => hinv.sat l r r' h1 h2
        · intro r hr
          exact mem_initWaiting.mp (hW₀ _ (hinv.wsub _ hr))
        · exact fun q hq => hinv.qconn q (List.mem_cons_of_mem _ hq)
        · intro l r h1 h2 l' h3
          rcases List.mem_cons.mp (hinv.clos l r h1 h2 l' h3) with h4 | h4
          · exact Or.inr h4
          · exact Or.inl h4
        · intro hs
          rcases List.mem_cons.mp (hinv.seedq hs) with h4 | h4
          · exact Or.inr h4
          · exact Or.inl h4
        · exact hinv.qconn ln (List.mem_cons_self _ _)
      have hend := splitFold_inv hG hW₀ _ _ hstep0
      set res := ((lnbrs G ln).map Prod.fst).foldl (splitStep G ln) (W, Qt, g)
        with hresdef
      have hres : SplitInv G W₀ seed res.1 res.2.1 res.2.2 := by
        refine ⟨hend.wsub, hend.wnd, ?_, hend.part, hend.conn, hend.qconn,
          ?_, ?_⟩
        · intro l r r' hlr hlr'
          by_cases hl : l = ln
          · subst hl
            exact absurd (hend.lnrest r hlr) (List.not_mem_nil r)
          · exact hend.sat l r r' hlr hlr' hl
        · intro l r h1 h2 l' h3
          rcases hend.clos l r h1 h2 l' h3 with h4 | h4
          · exact h4
          · subst h4
            exact absurd (hend.lnrest r h3) (List.not_mem_nil r)
        · intro hs
          rcases hend.seedq hs with h1 | h1
          · exact h1
          · have hseed : seed = (ln, seed.2) := by
              rw [← h1]
            rw [hseed] at hs
            exact absurd (hend.lnrest seed.2 hs) (List.not_mem_nil _)
      have hμ2 : (rightDegSum G + 2) * res.1.length + res.2.1.length <
          fuel := by
        have hf := splitFold_mu G ln ((lnbrs G ln).map Prod.fst) (W, Qt, g)
        rw [← hresdef] at hf
        have hμ3 : (rightDegSum G + 2) * W.length + Qt.length < fuel := by
          simp only [List.length_cons] at hμ
          linarith [hμ]
        exact lt_of_le_of_lt hf hμ3
      obtain ⟨hres1, hres2⟩ := ih res.1 res.2.1 res.2.2 hres hμ2
      refine ⟨hres1, ?_⟩
      intro x hx
      exact splitFold_w_sub G ln _ _ x (hres2 x hx)

/-! ### split_subgraphs: one outer round and the outer loop -/

lemma split_round {G : BipartiteGraph} (hG : SplitOK G)
    {a b : String} {Wt : List (String × String)} {acc : List BipartiteGraph}
    (h : OuterInv G ((a, b) :: Wt) acc) :
    OuterInv G
      (splitInner G ((rightDegSum G + 2) * ((a, b) :: Wt).length + 2)
        ((a, b) :: Wt, [a], BipartiteGraph.empty)).1
      (acc ++ [(splitInner G ((rightDegSum G + 2) * ((a, b) :: Wt).length + 2)
        ((a, b) :: Wt, [a], BipartiteGraph.empty)).2]) ∧
    (splitInner G ((rightDegSum G + 2) * ((a, b) :: Wt).length + 2)
      ((a, b) :: Wt, [a], BipartiteGraph.empty)).1.length <
      ((a, b) :: Wt).length := by
  have hinv0 : SplitInv G ((a, b) :: Wt) (a, b) ((a, b) :: Wt) [a]
      BipartiteGraph.empty := by
    refine ⟨fun e he => he, h.wnd, fun l r r' h1 h2 => h2, ?_, ?_, ?_, ?_, ?_⟩
    · intro l r w
      constructor
      · intro he
        exact absurd he (hasEdgeW_empty l r w)
      · rintro ⟨h1, h2, -⟩
        exact absurd h1 h2
    · intro l r w he
      exact absurd he (hasEdgeW_empty l r w)
    · intro q hq
      obtain rfl := List.mem_singleton.mp hq
      exact ⟨b, List.mem_cons_self _ _, Relation.ReflTransGen.refl⟩
    · intro l r h1 h2
      exact absurd h1 h2
    · intro hs
      exact List.mem_singleton.mpr rfl
  have hμ0 : (rightDegSum G + 2) * ((a, b) :: Wt).length + [a].length <
      (rightDegSum G + 2) * ((a, b) :: Wt).length + 2 := by
    simp only [List.length_singleton]
    exact Nat.add_lt_add_left one_lt_two _
  obtain ⟨hfin, hsub⟩ := splitInner_main hG h.wsub _ _ _ _ hinv0 hμ0
  set res := splitInner G ((rightDegSum G + 2) * ((a, b) :: Wt).length + 2)
    ((a, b) :: Wt, [a], BipartiteGraph.empty) with hresdef
  have hseednot : (a, b) ∉ res.1 := by
    intro hs
    exact absurd (hfin.seedq hs) (List.not_mem_nil a)
  have hseedEdge : hasEdgeW res.2 a b (weightOf G a b) :=
    (hfin.part a b _).mpr ⟨List.mem_cons_self _ _, hseednot, rfl⟩
  refine ⟨⟨?_, hfin.wnd, ?_, ?_, ?_, ?_, ?_⟩, ?_⟩
  · exact fun e he => h.wsub e (hsub e he)
  · intro l r r' h1 h2
    exact hfin.sat l r r' h1 (h.sat l r r' (hsub _ h1) h2)
  · intro e he hnot f hf hadj
    by_cases heW : e ∈ (a, b) :: Wt
    · unfold eadj at hadj
      rcases hadj with h1 | h1
      · have h5 : (f.1, e.2) ∈ (a, b) :: Wt := by
          rw [← h1]
          exact heW
        have h6 : (f.1, e.2) ∈ res.1 :=
          hfin.sat f.1 f.2 e.2 (show (f.1, f.2) ∈ res.1 from hf) h5
        apply hnot
        have he2 : e = (f.1, e.2) := by rw [← h1]
        rw [he2]
        exact h6
      · have h5 : (f.1, e.2) ∈ res.1 := by
          rw [h1]
          exact hf
        exact absurd
          (hfin.clos e.1 e.2 (show (e.1, e.2) ∈ (a, b) :: Wt from heW)
            (show (e.1, e.2) ∉ res.1 from hnot) f.1 h5)
          (List.not_mem_nil _)
    · exact h.oc e he heW f (hsub _ hf) hadj
  · intro l r hE hnot
    rw [List.countP_append]
    by_cases hW : (l, r) ∈ (a, b) :: Wt
    · have hacc : acc.countP
          (fun g => decide (hasEdgeW g l r (weightOf G l r))) = 0 := by
        rw [List.countP_eq_zero]
        intro g hg hdec
        exact (h.sub g hg l r _ (of_decide_eq_true hdec)).2.1 hW
      have hg1 : hasEdgeW res.2 l r (weightOf G l r) :=
        (hfin.part l r _).mpr ⟨hW, hnot, rfl⟩
      rw [hacc, List.countP_cons, List.countP_nil]
      simp [hg1]
    · have hacc : acc.countP
          (fun g => decide (hasEdgeW g l r (weightOf G l r))) = 1 :=
        h.cov l r hE hW
      have hg0 : ¬ hasEdgeW res.2 l r (weightOf G l r) := by
        intro hc
        exact hW ((hfin.part l r _).mp hc).1
      rw [hacc, List.countP_cons, List.countP_nil]
      simp [hg0]
  · intro g hg l r w he
    rcases List.mem_append.mp hg with h1 | h1
    · obtain ⟨p1, p2, p3⟩ := h.sub g h1 l r w he
      exact ⟨p1, fun hc => p2 (hsub _ hc), p3⟩
    · have hgeq : g = res.2 := by simpa using h1
      subst hgeq
      obtain ⟨p1, p2, p3⟩ := (hfin.part l r w).mp he
      exact ⟨h.wsub _ p1, p2, p3⟩
  · intro g hg
    rcases List.mem_append.mp hg with h1 | h1
    · exact h.comp g h1
    · have hgeq : g = res.2 := by simpa using h1
      subst hgeq
      refine ⟨⟨a, b, _, hseedEdge⟩, ?_, ?_⟩
      · intro l r w he l' r' w' he'
        exact Relation.ReflTransGen.trans (connIn_symm (hfin.conn l r w he))
          (hfin.conn l' r' w' he')
      · intro l r w he f hconn
        unfold connIn at hconn
        induction hconn with
        | refl => exact ⟨w, he⟩
        | @tail c d hrel hstep ih =>
          obtain ⟨w2, hw2⟩ := ih
          obtain ⟨hcE, hdE, hadj⟩ := hstep
          obtain ⟨q1, q2, -⟩ := (hfin.part c.1 c.2 w2).mp hw2
          have hdW : d ∈ (a, b) :: Wt := by
            by_contra hdnot
            exact h.oc d hdE hdnot c (show (c.1, c.2) ∈ (a, b) :: Wt from q1)
              (eadj_symm hadj)
          have hdnotW' : d ∉ res.1 := by
            intro hdW'
            unfold eadj at hadj
            rcases hadj with h1 | h1
            · have h6 : (d.1, c.2) ∈ (a, b) :: Wt := by
                rw [← h1]
                exact q1
              have h7 : (d.1, c.2) ∈ res.1 :=
                hfin.sat d.1 d.2 c.2 (show (d.1, d.2) ∈ res.1 from hdW') h6
              apply q2
              have hc2 : (c.1, c.2) = (d.1, c.2) := by rw [← h1]
              rw [hc2]
              exact h7
            · have h6 : (d.1, c.2) ∈ res.1 := by
                rw [h1]
                exact hdW'
              exact absurd (hfin.clos c.1 c.2 q1 q2 d.1 h6)
                (List.not_mem_nil _)
          exact ⟨weightOf G d.1 d.2,
            (hfin.part d.1 d.2 _).mpr
              ⟨show (d.1, d.2) ∈ (a, b) :: Wt from hdW,
               show (d.1, d.2) ∉ res.1 from hdnotW', rfl⟩⟩
  · have hsub2 : ∀ x ∈ res.1, x ∈ ((a, b) :: Wt).erase (a, b) := by
      intro x hx
      refine (h.wnd.mem_erase_iff).mpr ⟨?_, hsub _ hx⟩
      intro hx2
      exact hseednot (hx2 ▸ hx)
    have hle : res.1.length ≤ (((a, b) :: Wt).erase (a, b)).length :=
      (List.subperm_of_subset hfin.wnd hsub2).length_le
    have herase : (((a, b) :: Wt).erase (a, b)).length =
        ((a, b) :: Wt).length - 1 :=
      List.length_erase_of_mem (List.mem_cons_self _ _)
    rw [herase] at hle
    simp only [List.length_cons] at hle ⊢
    omega

lemma outerInv_done {G : BipartiteGraph} {acc : List BipartiteGraph}
    (h : OuterInv G [] acc) : SplitResultOK G acc := by
  refine ⟨?_, ?_, ?_⟩
  · intro l r hE
    exact h.cov l r hE (List.not_mem_nil _)
  · intro g hg l r w he
    obtain ⟨p1, -, p3⟩ := h.sub g hg l r w he
    exact ⟨p1, p3⟩
  · intro g hg
    exact h.comp g hg

lemma splitOuter_main {G : BipartiteGraph} (hG : SplitOK G) :
    ∀ (fuel : ℕ) W acc, OuterInv G W acc → W.length ≤ fuel →
      SplitResultOK G (splitOuter G fuel W acc) := by
  intro fuel
  induction fuel with
  | zero =>
    intro W acc h hlen
    have hnil : W = [] := List.eq_nil_of_length_eq_zero (Nat.le_zero.mp hlen)
    subst hnil
    exact outerInv_done h
  | succ fuel ih =>
    intro W acc h hlen
    cases W with
    | nil => exact outerInv_done h
    | cons e Wt =>
      obtain ⟨a, b⟩ := e
      have heq : splitOuter G (fuel + 1) ((a, b) :: Wt) acc =
          splitOuter G fuel
            (splitInner G ((rightDegSum G + 2) * ((a, b) :: Wt).length + 2)
              ((a, b) :: Wt, [a], BipartiteGraph.empty)).1
            (acc ++ [(splitInner G
              ((rightDegSum G + 2) * ((a, b) :: Wt).length + 2)
              ((a, b) :: Wt, [a], BipartiteGraph.empty)).2]) := rfl
      rw [heq]
      obtain ⟨hnext, hlt⟩ := split_round hG h
      refine ih _ _ hnext ?_
      exact Nat.lt_succ_iff.mp (Nat.lt_of_lt_of_le hlt hlen)

lemma split_subgraphs_main {G : BipartiteGraph} (hG : SplitOK G) :
    SplitResultOK G G.split_subgraphs := by
  unfold BipartiteGraph.split_subgraphs
  refine splitOuter_main hG _ _ _ ?_ (le_refl _)
  refine ⟨fun e he => he, initWaiting_nodup hG, fun l r r' h1 h2 => h2,
    ?_, ?_, ?_, ?_⟩
  · intro e he hnot f hf
    exact absurd he hnot
  · intro l r hE hnot
    exact absurd hE hnot
  · intro g hg
    exact absurd hg (List.not_mem_nil g)
  · intro g hg
    exact absurd hg (List.not_mem_nil g)

/-- C5: split_subgraphs returns a list of subgraphs in which every edge of
the input graph appears with its stored weight in exactly one subgraph, the
subgraphs carry no edges beyond those of the input, and each subgraph's
edge set is internally connected and closed under edge connectivity, hence
a maximal connected component; on the scenario C graph it returns exactly
two subgraphs, with left node sets [A, B, C] and [D, E], whose edge sets
together hold each of the eight original edges exactly once. -/
theorem C5_split_subgraphs_components :
    (∀ G : BipartiteGraph, SplitOK G →
      (∀ l r w, hasEdgeW G l r w →
        G.split_subgraphs.countP (fun g => decide (hasEdgeW g l r w)) = 1) ∧
      (∀ g ∈ G.split_subgraphs, ∀ l r w, hasEdgeW g l r w →
        hasEdgeW G l r w) ∧
      (∀ g ∈ G.split_subgraphs,
        (∃ e, e ∈ initWaiting g) ∧
        (∀ e ∈ initWaiting g, ∀ f ∈ initWaiting g, connIn G e f) ∧
        (∀ e ∈ initWaiting g, ∀ f, connIn G e f → f ∈ initWaiting g))) ∧
    GC.split_subgraphs.map BipartiteGraph.get_lns =
      [["A", "B", "C"], ["D", "E"]] ∧
    initWaiting GC = [("A", "1"), ("A", "2"), ("B", "1"), ("B", "3"),
      ("C", "3"), ("D", "4"), ("D", "5"), ("E", "5")] ∧
    (∀ e ∈ initWaiting GC,
      GC.split_subgraphs.countP (fun g => decide (hasEdgeW g e.1 e.2 1)) = 1) := by
  refine ⟨?_, by decide, by decide, by decide⟩
  intro G hG
  obtain ⟨m1, m2, m3⟩ := split_subgraphs_main hG
  refine ⟨?_, ?_, ?_⟩
  · intro l r w hw
    have hmem : (l, r) ∈ initWaiting G := mem_initWaiting_hasEdgeW.mpr ⟨w, hw⟩
    have hcount := m1 l r hmem
    rw [← weightOf_eq hw]
    exact hcount
  · intro g hg l r w hw
    obtain ⟨p1, p2⟩ := m2 g hg l r w hw
    rw [p2]
    exact hasEdgeW_weightOf p1
  · intro g hg
    obtain ⟨⟨l0, r0, w0, h0⟩, hpair, hclosed⟩ := m3 g hg
    refine ⟨⟨(l0, r0), mem_initWaiting_hasEdgeW.mpr ⟨w0, h0⟩⟩, ?_, ?_⟩
    · intro e he f hf
      obtain ⟨we, hwe⟩ := mem_initWaiting_hasEdgeW.mp he
      obtain ⟨wf, hwf⟩ := mem_initWaiting_hasEdgeW.mp hf
      exact hpair e.1 e.2 we hwe f.1 f.2 wf hwf
    · intro e he f hconn
      obtain ⟨we, hwe⟩ := mem_initWaiting_hasEdgeW.mp he
      obtain ⟨wf, hwf⟩ := hclosed e.1 e.2 we hwe f hconn
      exact mem_initWaiting_hasEdgeW.mpr ⟨wf, hwf⟩

/-- C5 witness: the structural hypotheses hold for the scenario C graph,
and its edge (A, 1) of weight 1 lies in exactly one returned subgraph. -/
theorem C5_split_subgraphs_components_witness :
    SplitOK GC ∧
    GC.split_subgraphs.countP (fun g => decide (hasEdgeW g "A" "1" 1)) = 1 :=
  ⟨by decide,
   (C5_split_subgraphs_components.1 GC (by decide)).1 "A" "1" 1 (by decide)⟩

end SimrankPy
